import Mathlib

/-!
Verification of the diff synthesis engine of `azure-devops-ai-review`.

Shallow embedding of the diff synthesis engine of the browser extension:

* the change-set discoverer, content retriever, budget allocator and diff
  encoder live in `src/background.js` (`fetchPRDiff`, `getChangeTypeName`,
  `generateUnifiedDiff`);
* the diff decoder lives in `src/diff-viewer.js` (`parseDiff`).

JavaScript strings are modelled as `List Char` (`Str`); `String.length`,
`substring`, `split`, `trim`, `startsWith`, `indexOf` and the concrete
regular expressions of the decoder are implemented explicitly on `Str` so
that every definition is executable and provable.  JavaScript's `\s` is
modelled by the ASCII whitespace characters that actually occur in the
data handled by the extension.
-/

set_option maxRecDepth 8192

namespace AzReview

/-- JavaScript strings, modelled as lists of characters (code points; all
data handled here is in the basic plane, where this agrees with the UTF-16
code-unit view used by JS `length`/`substring`). -/
abbrev Str := List Char

/-- Coerce a Lean string literal to the model. -/
def strOf (s : String) : Str := s.toList

/-- `isPre p s` : `s` starts with `p` (JS `String.startsWith` at offset 0). -/
def isPre : Str → Str → Bool
  | [], _ => true
  | _ :: _, [] => false
  | a :: as, b :: bs => a = b && isPre as bs

/-- JS `s.includes(pat)` / existence of a regex-literal occurrence. -/
def containsS (pat : Str) : Str → Bool
  | [] => isPre pat []
  | s@(_ :: rest) => isPre pat s || containsS pat rest

/-- Characters matched by JS `\s` (on the ASCII data handled here) and
removed by `String.trim`. -/
def wsChar (c : Char) : Bool :=
  c = ' ' || c = '\t' || c = '\n' || c = '\r' || c = '\x0b' || c = '\x0c'

/-- JS `String.trim`. -/
def trimS (s : Str) : Str :=
  ((s.dropWhile wsChar).reverse.dropWhile wsChar).reverse

/-- Decimal rendering of a number (JS number-to-string coercion). -/
def natStr (n : Nat) : Str := (Nat.repr n).toList

/-- JS `s.split('\n')` (single-character separator, structural). -/
def splitNl : Str → List Str
  | [] => [[]]
  | c :: rest =>
    if c = '\n' then [] :: splitNl rest
    else
      match splitNl rest with
      | [] => [[c]]
      | h :: t => (c :: h) :: t

/-- JS `Array.join('\n')`. -/
def joinNl : List Str → Str
  | [] => []
  | [x] => x
  | x :: xs => x ++ '\n' :: joinNl xs

/-- Fuel-driven worker for JS `String.split(sep)` with a multi-character
separator: scans left to right, cutting at each non-overlapping leftmost
occurrence of `sep`. -/
def splitF (sep : Str) : Nat → Str → Str → List Str
  | 0, acc, _ => [acc.reverse]
  | Nat.succ fuel, acc, s =>
    if sep ≠ [] ∧ isPre sep s = true then
      acc.reverse :: splitF sep fuel [] (s.drop sep.length)
    else
      match s with
      | [] => [acc.reverse]
      | c :: rest => splitF sep fuel (c :: acc) rest

/-- JS `String.split(sep)` for a non-empty separator. -/
def splitOnS (sep s : Str) : List Str := splitF sep (s.length + 1) [] s

/-- `idxOfS x xs` : JS `Array.indexOf(x)` on a list of lines, as an
`Option` (`none` for `-1`). -/
def idxOfS (x : Str) : List Str → Option Nat
  | [] => none
  | y :: ys => if y = x then some 0 else (idxOfS x ys).map (· + 1)

/-- `Array.map((e, i) => ...)` with explicit start index. -/
def mapIdxFrom (f : Nat → Str → Str) : Nat → List Str → List Str
  | _, [] => []
  | i, x :: xs => f i x :: mapIdxFrom f (i + 1) xs

/-! ## The diff decoder: `parseDiff` in `src/diff-viewer.js`

`parseDiff` splits the blob on `\n## `, matches each section header against
`/^(Add|Edit|Delete|Rename|Change):\s*(.+)/`, extracts the fenced block via
`/```(?:diff)?\n([\s\S]*?)```/`, and parses each line of the block with the
tolerant grammar `/^L\s*(\d+)\s*([+-]?)\s*(.*)$/`, falling back to bare
`+`/`-` prefixes and then to context lines; blank lines are dropped. -/

/-- The five change-type words accepted by the decoder's header regex, in
alternation order. -/
def ctNames : List Str :=
  [strOf "Add", strOf "Edit", strOf "Delete", strOf "Rename", strOf "Change"]

/-- The `\s*(.+)` part of the header regex applied to the text after the
colon: greedily skip whitespace (with backtracking so that `.+` can still
consume at least one non-newline character), then capture up to the next
newline. -/
def capAfterColon (s : Str) : Option Str :=
  let w := (s.takeWhile wsChar).length
  if w < s.length then some ((s.drop w).takeWhile (fun c => c ≠ '\n'))
  else
    match s.reverse.dropWhile (fun c => c = '\n') with
    | [] => none
    | c :: _ => some [c]

/-- The header regex `/^(Add|Edit|Delete|Rename|Change):\s*(.+)/` followed
by `match[2].trim()`, returning `(changeType, filePath)`. -/
def headerMatchS (s : Str) : Option (Str × Str) :=
  ctNames.findSome? fun p =>
    if isPre (p ++ [':']) s then
      (capAfterColon (s.drop (p.length + 1))).map fun t => (p, trimS t)
    else none

/-- Lazy capture `([\s\S]*?)` up to the next triple backtick: collect
characters until a position where ```` ``` ```` starts; `none` if the fence
is never closed. -/
def fenceClose : Str → Option Str
  | [] => none
  | c :: rest =>
    if isPre (strOf "```") (c :: rest) then some []
    else (fenceClose rest).map (fun t => c :: t)

/-- The code-block regex `/```(?:diff)?\n([\s\S]*?)```/`: leftmost opening
fence (preferring ```` ```diff ```` at a given position), then the lazy
capture up to the closing fence. -/
def fenceScan : Str → Option Str
  | [] => none
  | c :: rest =>
    if isPre (strOf "```diff\n") (c :: rest) then fenceClose ((c :: rest).drop 8)
    else if isPre (strOf "```\n") (c :: rest) then fenceClose ((c :: rest).drop 4)
    else fenceScan rest

/-- Kind of a decoded diff line (`add` / `del` / `context` in the viewer). -/
inductive LKind where
  | add
  | del
  | context
deriving DecidableEq, Repr

/-- One decoded line as stored by the viewer: kind, line-number text
(empty when untracked) and content. -/
structure LineE where
  kind : LKind
  lineNum : Str
  content : Str
deriving DecidableEq, Repr

/-- The per-line regex `/^L\s*(\d+)\s*([+-]?)\s*(.*)$/`, returning
`(digits, sign?, rest)`. -/
def lineMatchS (l : Str) : Option (Str × Option Char × Str) :=
  match l with
  | 'L' :: r0 =>
    let r1 := r0.dropWhile wsChar
    let ds := r1.takeWhile Char.isDigit
    if ds = [] then none
    else
      let r2 := (r1.dropWhile Char.isDigit).dropWhile wsChar
      match r2 with
      | '+' :: r3 => some (ds, some '+', r3.dropWhile wsChar)
      | '-' :: r3 => some (ds, some '-', r3.dropWhile wsChar)
      | _ => some (ds, none, r2.dropWhile wsChar)
  | _ => none

/-- Decode one line of a fenced block: the numbered grammar first, then the
bare `+`/`-` fallbacks (whose content is trimmed), then non-blank context;
blank lines yield `none` and are dropped. -/
def parseLine (l : Str) : Option LineE :=
  match lineMatchS l with
  | some (num, sg, content) =>
    if sg = some '+' then some ⟨.add, num, content⟩
    else if sg = some '-' then some ⟨.del, num, content⟩
    else some ⟨.context, num, content⟩
  | none =>
    match l with
    | '+' :: rest => some ⟨.add, [], trimS rest⟩
    | '-' :: rest => some ⟨.del, [], trimS rest⟩
    | _ => if trimS l ≠ [] then some ⟨.context, [], l⟩ else none

/-- One parsed file of the viewer: path, change type, decoded lines, and
the add/del counters. -/
structure FileD where
  path : Str
  changeType : Str
  lines : List LineE
  additions : Nat
  deletions : Nat
deriving DecidableEq, Repr

/-- The decoded line list of one section: the fenced block's lines pushed
by the decoder loop (no fenced block yields no lines). -/
def sectionLines (sec : Str) : List LineE :=
  match fenceScan sec with
  | none => []
  | some content => (splitNl content).filterMap parseLine

/-- Decode one `\n## `-delimited section: blank sections and sections whose
header does not match are skipped; a parsed file is kept when it has at
least one decoded line or its change type is `Delete`. -/
def parseSection (sec : Str) : Option FileD :=
  if trimS sec = [] then none
  else
    match headerMatchS sec with
    | none => none
    | some (ct, path) =>
      if sectionLines sec ≠ [] ∨ ct = strOf "Delete" then
        some ⟨path, ct, sectionLines sec,
          (sectionLines sec).countP (fun e => e.kind == LKind.add),
          (sectionLines sec).countP (fun e => e.kind == LKind.del)⟩
      else none

/-- `parseDiff` of `src/diff-viewer.js`: split the blob on `\n## ` and
decode each section. -/
def parseDiffS (d : Str) : List FileD :=
  (splitOnS (strOf "\n## ") d).filterMap parseSection

/-! ## The line differ: `generateUnifiedDiff` in `src/background.js`

Two cursors walk `oldLines`/`newLines`.  Matching lines advance both; on a
mismatch the forward distances to the other side's line decide between an
insertion run, a deletion run and a one-line modification.  The changes are
recorded in a JS `Map` (`newIdx` keys for adds, `oldIdx + 10000` for
removes, `set` replacing in place on key collision), then rendered with
optional context and a final cap of 150 output lines (200 in full-file
mode, which bypasses the differ). -/

/-- The scope modes of `generateUnifiedDiff`. -/
inductive Scope where
  | changesOnly
  | changesContext
  | fullFile
deriving DecidableEq, Repr

/-- One recorded change of the `changes` map. -/
inductive Chg where
  | add (text : Str) (newIdx : Nat)
  | rem (text : Str) (oldIdx : Nat)
deriving DecidableEq, Repr

/-- JS `Map.set` on an association list: replace in place if the key is
present (keeping its original position), else append. -/
def mapSet (m : List (Nat × Chg)) (k : Nat) (v : Chg) : List (Nat × Chg) :=
  if m.any (fun p => p.1 = k) then
    m.map (fun p => if p.1 = k then (k, v) else p)
  else m ++ [(k, v)]

/-- The run of `k` `changes.set(newIdx, {type:'add',...})` calls emitted
while `newIdx < oldInNew`, as key/value pairs. -/
def addRun (newRest : List Str) (ni k : Nat) : List (Nat × Chg) :=
  (List.range k).map fun j => (ni + j, Chg.add (newRest.getD j []) (ni + j))

/-- The run of `k` `changes.set(oldIdx + 10000, {type:'remove',...})` calls
emitted while `oldIdx < newInOld`. -/
def remRun (oldRest : List Str) (oi k : Nat) : List (Nat × Chg) :=
  (List.range k).map fun j =>
    (oi + j + 10000, Chg.rem (oldRest.getD j []) (oi + j))

/-- Sequence of `Map.set` calls. -/
def setAll (m : List (Nat × Chg)) (xs : List (Nat × Chg)) : List (Nat × Chg) :=
  xs.foldl (fun acc p => mapSet acc p.1 p.2) m

/-- Fuel-driven embedding of the cursor loop of `generateUnifiedDiff`
(lines 681-723): `oldR`/`newR` are the unprocessed suffixes starting at
cursors `oi`/`ni`.  Each step consumes at least one line, so fuel
`oldR.length + newR.length` always suffices. -/
def collectC : Nat → List Str → List Str → Nat → Nat → List (Nat × Chg) →
    List (Nat × Chg)
  | 0, _, _, _, _, m => m
  | Nat.succ fuel, oldR, newR, oi, ni, m =>
    match oldR, newR with
    | [], [] => m
    | [], n :: ns =>
      collectC fuel [] ns oi (ni + 1) (mapSet m ni (.add n ni))
    | o :: os, [] =>
      collectC fuel os [] (oi + 1) ni (mapSet m (oi + 10000) (.rem o oi))
    | o :: os, n :: ns =>
      if o = n then collectC fuel os ns (oi + 1) (ni + 1) m
      else
        match idxOfS o (n :: ns), idxOfS n (o :: os) with
        | some k1, none =>
          collectC fuel (o :: os) ((n :: ns).drop k1) oi (ni + k1)
            (setAll m (addRun (n :: ns) ni k1))
        | some k1, some k2 =>
          if k1 < k2 then
            collectC fuel (o :: os) ((n :: ns).drop k1) oi (ni + k1)
              (setAll m (addRun (n :: ns) ni k1))
          else
            collectC fuel ((o :: os).drop k2) (n :: ns) (oi + k2) ni
              (setAll m (remRun (o :: os) oi k2))
        | none, some k2 =>
          collectC fuel ((o :: os).drop k2) (n :: ns) (oi + k2) ni
            (setAll m (remRun (o :: os) oi k2))
        | none, none =>
          collectC fuel os ns (oi + 1) (ni + 1)
            (mapSet (mapSet m (oi + 10000) (.rem o oi)) ni (.add n ni))

/-- The full `changes` map of `generateUnifiedDiff` for one file. -/
def collectChanges (oldL newL : List Str) : List (Nat × Chg) :=
  collectC (oldL.length + newL.length) oldL newL 0 0 []

/-- `changedNewLines` in map order (a JS `Set` iterates in insertion
order). -/
def changedNew (m : List (Nat × Chg)) : List Nat :=
  m.filterMap fun p =>
    match p.2 with
    | .add _ i => some i
    | .rem _ _ => none

/-- `changedOldLines` in map order. -/
def changedOld (m : List (Nat × Chg)) : List Nat :=
  m.filterMap fun p =>
    match p.2 with
    | .add _ _ => none
    | .rem _ i => some i

/-- `Math.abs(oldIdx - i)` on naturals. -/
def natDist (a b : Nat) : Nat := max a b - min a b

/-- State of the rendering loop: the not-yet-emitted removed-line indices
(`changedOldLines`, mutated by deletion), the output lines, and
`lastOutputLine`. -/
structure RSt where
  remOld : List Nat
  acc : List Str
  lastOut : Int
deriving Repr

/-- One iteration of the rendering loop (lines 745-782) at new-line index
`i`: a changed line first flushes the nearby pending removed lines
(`|oldIdx - i| <= 2`) then emits `+ line`; otherwise, in changes-context
mode, lines within the context window are emitted as context, with an
`  ...` separator across gaps. -/
def renderStep (oldL newL : List Str) (scope : Scope) (ctx : Nat)
    (cN : List Nat) (st : RSt) (i : Nat) : RSt :=
  let isChanged := cN.contains i
  let inCtx := scope = Scope.changesContext ∧
    ((List.range' (i - ctx) (min (newL.length - 1) (i + ctx) + 1 - (i - ctx))).any
      fun j => cN.contains j)
  if isChanged then
    let near := st.remOld.filter fun oi => natDist oi i ≤ 2
    let far := st.remOld.filter fun oi => ¬ natDist oi i ≤ 2
    ⟨far,
      st.acc ++ near.map (fun oi => strOf "- " ++ oldL.getD oi []) ++
        [strOf "+ " ++ newL.getD i []],
      Int.ofNat i⟩
  else if inCtx then
    let acc1 :=
      if Int.ofNat i > st.lastOut + 1 ∧ st.acc ≠ [] then st.acc ++ [strOf "  ..."]
      else st.acc
    ⟨st.remOld, acc1 ++ [strOf "  " ++ newL.getD i []], Int.ofNat i⟩
  else st

/-- The `result` array of `generateUnifiedDiff` before the 150-line cap:
empty when no changes were recorded (early `return ''`), else the rendered
lines followed by the pending removed lines. -/
def diffResultLines (oldL newL : List Str) (scope : Scope) (ctx : Nat) :
    List Str :=
  let m := collectChanges oldL newL
  if m = [] then []
  else
    let st := (List.range newL.length).foldl
      (renderStep oldL newL scope ctx (changedNew m)) ⟨changedOld m, [], -10⟩
    st.acc ++ st.remOld.map fun oi => strOf "- " ++ oldL.getD oi []

/-- Left pad with spaces to width 4 (JS `String.padStart(4)`). -/
def padNum (n : Nat) : Str :=
  let d := natStr n
  List.replicate (4 - d.length) ' ' ++ d

/-- The list of output lines of `generateUnifiedDiff`: the first 200
numbered lines of the new file in full-file mode, else the rendered diff
capped at 150 lines (`result.slice(0, 150)`). -/
def emittedLines (oldC newC : Str) (scope : Scope) (ctx : Nat) : List Str :=
  match scope with
  | .fullFile =>
    mapIdxFrom (fun i l => padNum (i + 1) ++ strOf " | " ++ l) 0
      ((splitNl newC).take 200)
  | _ => (diffResultLines (splitNl oldC) (splitNl newC) scope ctx).take 150

/-- `generateUnifiedDiff` of `src/background.js` (the `filePath` parameter
is unused by the function body and omitted). -/
def generateUnifiedDiffS (oldC newC : Str) (scope : Scope) (ctx : Nat) : Str :=
  joinNl (emittedLines oldC newC scope ctx)

/-! ## Change entries and `getChangeTypeName` -/

/-- JS truthiness of an optional string: `undefined` and `''` are falsy. -/
def strTruthy : Option Str → Option Str
  | some p => if p = [] then none else some p
  | none => none

/-- One change entry as the host API returns it: the path may live at
`entry.item.path` or `entry.path`, the change type is a numeric code
(absent for malformed entries). -/
structure Entry where
  itemPath : Option Str
  topPath : Option Str
  changeType : Option Nat
deriving DecidableEq, Repr

/-- `entry.item?.path || entry.path` (JS `||` falls through on `''`). -/
def Entry.effPath (e : Entry) : Option Str :=
  match strTruthy e.itemPath with
  | some p => some p
  | none => strTruthy e.topPath

/-- `getChangeTypeName` of `src/background.js`: the five known codes map to
names, other truthy codes are rendered as their decimal text, falsy input
becomes `Change`. -/
def getChangeTypeName : Option Nat → Str
  | some 1 => strOf "Add"
  | some 2 => strOf "Edit"
  | some 4 => strOf "Delete"
  | some 8 => strOf "Rename"
  | some 16 => strOf "SourceRename"
  | some n => if n = 0 then strOf "Change" else natStr n
  | none => strOf "Change"

/-! ## Content retrieval and per-file sections (lines 417-549)

Network responses are inputs of the model: an `ItemPlan` records, for one
file, the outcome of each request `fetchPRDiff` may issue for it.
`throws` models a request or body-read that rejects, landing in the
per-file `catch`. -/

/-- An HTTP response: payload of a successful request, or a status code. -/
inductive HttpR (α : Type) where
  | ok (val : α)
  | fail (status : Nat)
deriving DecidableEq, Repr

/-- Outcomes of the requests issued for one file: the structured item
fetch keyed by repository name, the retry keyed by repository id, the
raw-text fetch, and the target-branch fetch used for edits.  The `ok`
payload of the structured fetches is the JSON `content` field (`none` when
missing). -/
structure ItemPlan where
  byName : HttpR (Option Str)
  byId : HttpR (Option Str)
  raw : HttpR Str
  target : HttpR (Option Str)
  throws : Bool
deriving DecidableEq, Repr

/-- Resolved content source for one file. -/
inductive CO where
  | structured (c : Option Str)
  | rawText (t : Str)
  | failed (status : Nat)
  | errored
deriving DecidableEq, Repr

/-- The retrieval cascade (lines 435-479): the name-keyed fetch, then — if
it failed and a repository id is known — the id-keyed fetch, then the
raw-text fetch.  A raw success with empty text falls through to a second
body read, which throws (`errored`); a raw failure leaves the last
status. -/
def resolveContent (repoId : Option Str) (p : ItemPlan) : CO :=
  if p.throws then .errored
  else
    let r2 : HttpR (Option Str) :=
      match p.byName with
      | .ok c => .ok c
      | .fail s1 => if repoId.isSome then p.byId else .fail s1
    match r2 with
    | .ok c => .structured c
    | .fail _ =>
      match p.raw with
      | .ok t => if t = [] then .errored else .rawText t
      | .fail s3 => .failed s3

/-- `MAX_TOTAL_CHARS`. -/
def maxTotalChars : Nat := 12000

/-- `MAX_FILE_CHARS`. -/
def maxFileChars : Nat := 2500

/-- `MAX_FILES`. -/
def maxFiles : Nat := 10

/-- `\n## <changeType>: <path>\n`. -/
def sectionHdr (ct path : Str) : Str :=
  strOf "\n## " ++ ct ++ strOf ": " ++ path ++ strOf "\n"

/-- How a computed file section is appended: normally (budget-clamped),
via the raw-text early path (skipped outright if over budget), or through
the `catch` handler (appended without budget accounting). -/
inductive SectionResult where
  | normal (fs : Str)
  | rawText (fs : Str)
  | errored
deriving DecidableEq, Repr

/-- The file section built for one entry (lines 428-535): deleted files
get a stub; otherwise the resolved content is rendered — additions as a
`+`-prefixed listing, edits as a unified diff against the target branch
(falling back to a plain preview), each truncated to `MAX_FILE_CHARS`
with an explicit note. -/
def sectionBody (scope : Scope) (ctx : Nat) (repoId : Option Str)
    (ct path : Str) (p : ItemPlan) : SectionResult :=
  let hdr := sectionHdr ct path
  if ct = strOf "Delete" then .normal (hdr ++ strOf "(File deleted)\n")
  else
    match resolveContent repoId p with
    | .errored => .errored
    | .rawText t =>
      let tr := t.take maxFileChars
      .rawText (hdr ++ strOf "```\n" ++ tr ++
        (if tr.length < t.length then strOf "\n... (truncated)" else []) ++
        strOf "\n```\n")
    | .failed s =>
      .normal (hdr ++ strOf "(Could not fetch content - " ++ natStr s ++
        strOf ")\n")
    | .structured cOpt =>
      match strTruthy cOpt with
      | none => .normal (hdr ++ strOf "(Binary or empty file)\n")
      | some c =>
        if ct = strOf "Add" then
          let tr := c.take maxFileChars
          .normal (hdr ++ strOf "```diff\n" ++
            joinNl ((splitNl tr).map (fun l => strOf "+ " ++ l)) ++
            (if tr.length < c.length then strOf "\n... (file truncated)" else []) ++
            strOf "\n```\n")
        else
          match p.target with
          | .ok tOpt =>
            let tc := (strTruthy tOpt).getD []
            let d := generateUnifiedDiffS tc c scope ctx
            if 0 < d.length then
              .normal (hdr ++ strOf "```diff\n" ++ d.take maxFileChars ++
                (if maxFileChars < d.length then strOf "\n... (diff truncated)" else []) ++
                strOf "\n```\n")
            else .normal (hdr ++ strOf "(No text changes detected)\n")
          | .fail _ =>
            let pv := c.take maxFileChars
            .normal (hdr ++ strOf "```\n" ++ pv ++
              (if pv.length < c.length then strOf "\n... (truncated)" else []) ++
              strOf "\n```\n")

/-- `\n## <ct>: <path>\n(Error fetching content)\n`, appended by the
per-file `catch` without touching the budget counter. -/
def errSection (ct path : Str) : Str :=
  sectionHdr ct path ++ strOf "(Error fetching content)\n"

/-- The diff section emitted for one file around a generated unified diff
(lines 429 and 508-514): header, fenced `diff` block with the diff text
truncated to `MAX_FILE_CHARS` (with an explicit note when cut). -/
def encodeDiffSection (ct path diffResult : Str) : Str :=
  sectionHdr ct path ++ strOf "```diff\n" ++ diffResult.take maxFileChars ++
  (if maxFileChars < diffResult.length then strOf "\n... (diff truncated)" else []) ++
  strOf "\n```\n"

/-- The (kind, text) op a differ output line denotes on the encoder side:
`+ t` is an add of `t`, `- t` a removal of `t`. -/
def lineOpOf (l : Str) : LKind × Str :=
  if isPre (strOf "+ ") l then (LKind.add, l.drop 2)
  else if isPre (strOf "- ") l then (LKind.del, l.drop 2)
  else (LKind.context, l)

/-- Shape of a changes-only differ output line: a `+ `/`- ` prefix over a
line of one of the two files (or the out-of-range default). -/
def shapedLine (oldL newL : List Str) (l : Str) : Prop :=
  ∃ t, (l = '+' :: ' ' :: t ∨ l = '-' :: ' ' :: t) ∧
    (t ∈ newL ∨ t ∈ oldL ∨ t = [])

/-- The note appended when the loop breaks on an exhausted budget. -/
def truncMarker : Str := strOf "\n(Content truncated - size limit reached)\n"

/-- The suffix glued onto a section clamped to the remaining budget. -/
def clampSfx : Str := strOf "\n...(truncated)\n```\n"

/-- Budget clamp (lines 538-540): a section that would overflow the budget
is cut to `MAX_TOTAL_CHARS - totalChars - 50` characters (clamped at zero,
as JS `substring`) and closed with a truncation suffix. -/
def clampSection (total : Nat) (fs : Str) : Str :=
  if maxTotalChars < total + fs.length then
    fs.take (maxTotalChars - total - 50) ++ clampSfx
  else fs

/-- The file loop of `fetchPRDiff` (lines 417-549) over the selected
entries paired with their request outcomes, threading the accumulated blob
and the budget counter `totalChars`. -/
def processFiles (scope : Scope) (ctx : Nat) (repoId : Option Str) :
    List (Entry × ItemPlan) → Str → Nat → Str
  | [], acc, _ => acc
  | (e, p) :: rest, acc, total =>
    if maxTotalChars ≤ total then acc ++ truncMarker
    else
      match e.effPath with
      | none => processFiles scope ctx repoId rest acc total
      | some path =>
        match sectionBody scope ctx repoId (getChangeTypeName e.changeType) path p with
        | .errored =>
          processFiles scope ctx repoId rest
            (acc ++ errSection (getChangeTypeName e.changeType) path) total
        | .rawText fs =>
          if total + fs.length ≤ maxTotalChars then
            processFiles scope ctx repoId rest (acc ++ fs) (total + fs.length)
          else processFiles scope ctx repoId rest acc total
        | .normal fs =>
          processFiles scope ctx repoId rest (acc ++ clampSection total fs)
            (total + (clampSection total fs).length)

/-- The source-file extensions given priority by the budget allocator. -/
def codeExts : List Str :=
  [strOf ".js", strOf ".ts", strOf ".py", strOf ".cs", strOf ".java",
   strOf ".go", strOf ".rs", strOf ".cpp", strOf ".c", strOf ".jsx",
   strOf ".tsx", strOf ".vue", strOf ".rb", strOf ".php", strOf ".swift",
   strOf ".kt"]

/-- JS `String.endsWith`. -/
def isSuffixS (sfx s : Str) : Bool := isPre sfx.reverse s.reverse

/-- Whether an entry's path carries a recognized source-code extension. -/
def isCodeFile (e : Entry) : Bool :=
  codeExts.any fun ext => isSuffixS ext (e.effPath.getD [])

/-- The stable two-class sort of lines 405-413 (`Array.sort` with a
comparator that only distinguishes code files from the rest): code files
first, discovery order preserved inside each class. -/
def sortedEntries (es : List Entry) : List Entry :=
  es.filter isCodeFile ++ es.filter fun e => ¬ isCodeFile e

/-- Header data of the pull request as used by the blob builder. -/
structure BlobEnv where
  title : Str
  description : Option Str
  sourceBranch : Str
  targetBranch : Str
  repoId : Option Str
deriving Repr

/-- The blob header (lines 375-380): title, optional description, branch
pair and file count. -/
def headerFor (env : BlobEnv) (n : Nat) : Str :=
  strOf "# Pull Request: " ++ env.title ++ strOf "\n" ++
  (match strTruthy env.description with
   | some d => strOf "Description: " ++ d ++ strOf "\n"
   | none => []) ++
  strOf "\nBranch: " ++ env.sourceBranch ++ strOf " → " ++ env.targetBranch ++
  strOf "\n" ++ strOf "Files changed: " ++ natStr n ++ strOf "\n\n---\n"

/-- The warning emitted when no change entries were discovered. -/
def noChangesWarn : Str :=
  strOf "\n⚠️ No file changes detected. This might be a permissions issue or the PR has no code changes.\n"

/-- The trailing marker counting the files dropped by the `MAX_FILES`
cap — emitted only when more than `MAX_FILES` entries were discovered. -/
def moreNoteOf (n : Nat) : Str :=
  if maxFiles < n then
    strOf "\n---\n... and " ++ natStr (n - maxFiles) ++ strOf " more files not shown\n"
  else []

/-- The serialized diff blob produced by `fetchPRDiff` (lines 374-553) for
a discovered entry list, given each entry's request outcomes. -/
def buildBlob (env : BlobEnv) (entries : List Entry)
    (planOf : Entry → ItemPlan) (scope : Scope) (ctx : Nat) : Str :=
  let hdr := headerFor env entries.length
  if entries = [] then hdr ++ noChangesWarn
  else
    processFiles scope ctx env.repoId
      (((sortedEntries entries).take maxFiles).map fun e => (e, planOf e))
      hdr hdr.length
    ++ moreNoteOf entries.length

/-! ## The change-set discoverer (lines 286-372) -/

/-- Network responses consumed by the discovery strategies: the iteration
list (ids), the changes of the latest iteration, the commit list, the
changes of each commit, and the branch diff. -/
structure DiscoveryEnv where
  iterResp : HttpR (List Nat)
  iterChanges : Nat → HttpR (List Entry)
  commitsResp : HttpR (List Nat)
  commitChanges : Nat → HttpR (List Entry)
  branchDiffResp : HttpR (List Entry)

/-- Strategy 1, iteration changes: list the PR iterations, take the
latest, fetch its change entries; any failure or an empty iteration list
yields the empty list. -/
def strategy1 (d : DiscoveryEnv) : List Entry :=
  match d.iterResp with
  | .fail _ => []
  | .ok iters =>
    match iters.getLast? with
    | none => []
    | some last =>
      match d.iterChanges last with
      | .ok es => es
      | .fail _ => []

/-- The merge of one commit's changes into the accumulated entry list:
entries whose `item.path` is truthy and not yet present (by effective
path) are appended. -/
def mergeCommitChanges (acc : List Entry) (chs : List Entry) : List Entry :=
  chs.foldl
    (fun acc ch =>
      match strTruthy ch.itemPath with
      | some p =>
        if acc.any (fun e => e.effPath = some p) then acc else acc ++ [ch]
      | none => acc)
    acc

/-- Strategy 2, commit changes: union the changes of every commit of the
PR, first occurrence of a path winning; failed per-commit requests are
skipped. -/
def strategy2 (d : DiscoveryEnv) : List Entry :=
  match d.commitsResp with
  | .fail _ => []
  | .ok commits =>
    commits.foldl
      (fun acc c =>
        match d.commitChanges c with
        | .ok chs => mergeCommitChanges acc chs
        | .fail _ => acc)
      []

/-- Strategy 3, branch diff: the direct diff of source against target
branch. -/
def strategy3 (d : DiscoveryEnv) : List Entry :=
  match d.branchDiffResp with
  | .ok chs => chs
  | .fail _ => []

/-- The strategy chain of `fetchPRDiff`: each later strategy runs only
when the entry list is still empty. -/
def discover (d : DiscoveryEnv) : List Entry :=
  let s1 := strategy1 d
  if s1 ≠ [] then s1
  else
    let s2 := strategy2 d
    if s2 ≠ [] then s2 else strategy3 d

/-! ## The full pipeline (lines 242-571) -/

/-- Pull-request metadata from the initial details request. -/
structure PRData where
  title : Str
  description : Option Str
  sourceBranch : Str
  targetBranch : Str
  repoId : Option Str

/-- All inputs of one `fetchPRDiff` invocation. -/
structure PipelineEnv where
  prResp : HttpR PRData
  denv : DiscoveryEnv
  planOf : Entry → ItemPlan
  scope : Scope

/-- `contextLines`: 5 in changes-context mode, else 0 (line 260). -/
def ctxFor : Scope → Nat
  | .changesContext => 5
  | _ => 0

/-- `fetchPRDiff`: a 401/403 on the initial pull-request details request
throws the corresponding auth error (caught by the outer handler and
surfaced as a failure); any other details failure throws a generic API
error; otherwise discovery and blob construction run to completion. -/
def fetchPRDiffResult (env : PipelineEnv) : Except Str Str :=
  match env.prResp with
  | .fail 401 => .error (strOf "Azure DevOps token is invalid or expired")
  | .fail 403 => .error (strOf "Access denied. Check your token permissions.")
  | .fail s => .error (strOf "Azure DevOps API error: " ++ natStr s)
  | .ok pr =>
    .ok (buildBlob ⟨pr.title, pr.description, pr.sourceBranch, pr.targetBranch, pr.repoId⟩
      (discover env.denv) env.planOf env.scope (ctxFor env.scope))

/-! ## Concrete fixtures used by the claim theorems and witnesses -/

/-- Concrete discovery environment where strategies 1 and 2 are empty. -/
def c3Entry : Entry := ⟨some (strOf "/w.txt"), none, some 2⟩

/-- Iterations list empty, commit list empty, branch diff succeeds. -/
def c3Denv : DiscoveryEnv :=
  ⟨.ok [], fun _ => .fail 404, .ok [], fun _ => .fail 404, .ok [c3Entry]⟩

/-- Pipeline around `c3Denv`. -/
def c3PEnv : PipelineEnv :=
  ⟨.ok ⟨strOf "T", none, strOf "s", strOf "t", none⟩, c3Denv,
    fun _ => ⟨.ok (some (strOf "x")), .fail 1, .fail 1, .fail 1, false⟩,
    .changesOnly⟩

/-- Entry returned by the commit strategy in the 401-inside-a-strategy
scenario. -/
def c6Entry : Entry := ⟨some (strOf "/a.txt"), none, some 2⟩

/-- Environment whose iteration request fails with 401 while the commit
strategy succeeds. -/
def c6Env : PipelineEnv :=
  ⟨.ok ⟨strOf "T", none, strOf "s", strOf "t", none⟩,
    ⟨.fail 401, fun _ => .fail 401, .ok [7], fun _ => .ok [c6Entry], .fail 500⟩,
    fun _ => ⟨.ok (some (strOf "x")), .fail 1, .fail 1, .fail 1, false⟩,
    .changesOnly⟩

/-- Plan on which every retrieval attempt fails (raw with 403). -/
def c5Plan : ItemPlan := ⟨.fail 500, .fail 404, .fail 403, .fail 1, false⟩

/-- Every newline in the string is final or followed by a backtick, `+`
or `-` — which rules out the decoder's `\n## ` section separator. -/
def nlOk : Str → Bool
  | [] => true
  | c :: rest =>
    (if c = '\n' then
      match rest with
      | [] => true
      | d :: _ => d = '`' || d = '+' || d = '-'
     else true) && nlOk rest

/-- A file whose section lands in the per-file `catch` handler (appended
without budget accounting). -/
def sectionErrored (scope : Scope) (ctx : Nat) (repoId : Option Str)
    (pr : Entry × ItemPlan) : Bool :=
  match pr.1.effPath with
  | none => false
  | some path =>
    sectionBody scope ctx repoId (getChangeTypeName pr.1.changeType) path pr.2
      == SectionResult.errored

/-- A pull request whose title alone exhausts the 12000-character budget. -/
def c1CEnv : BlobEnv := ⟨List.replicate 12000 'a', none, strOf "s", strOf "t", none⟩

/-- Eleven discovered change entries. -/
def c1CEntries : List Entry :=
  (List.range 11).map fun i => ⟨some ('/' :: natStr i), none, some 2⟩

/-- All retrieval requests fail (never consulted in the counterexample). -/
def c1CPlan : ItemPlan := ⟨.fail 404, .fail 404, .fail 404, .fail 404, false⟩

/-! # Claims

Each claim of the specification is settled by one theorem below.  Helper
lemmas are shared; the claim theorems themselves are used only by their own
witnesses. -/

/-! ## Helper lemmas on the decoder -/

/-- A successful header match always yields one of the five decoder
change-type words. -/
theorem headerMatch_ct_mem {s ct path : Str}
    (h : headerMatchS s = some (ct, path)) : ct ∈ ctNames := by
  unfold headerMatchS at h
  obtain ⟨l1, p, l2, hdec, hp, -⟩ := List.findSome?_eq_some_iff.mp h
  have hpmem : p ∈ ctNames := by rw [hdec]; exact List.mem_append_right _ (.head _)
  by_cases hpre : isPre (p ++ [':']) s = true
  · simp only [hpre, if_true, Option.map_eq_some'] at hp
    obtain ⟨t, -, hpair⟩ := hp
    cases hpair
    exact hpmem
  · simp [hpre] at hp

/-- A decoded file's change type is the matched header word. -/
theorem parseSection_changeType {sec : Str} {f : FileD}
    (h : parseSection sec = some f) :
    headerMatchS sec = some (f.changeType, f.path) ∧ f.lines = sectionLines sec := by
  unfold parseSection at h
  by_cases h0 : trimS sec = []
  · simp [h0] at h
  · simp only [h0, if_false] at h
    cases hh : headerMatchS sec with
    | none => rw [hh] at h; simp at h
    | some ctp =>
      obtain ⟨ct, path⟩ := ctp
      rw [hh] at h
      simp only at h
      by_cases hcond : sectionLines sec ≠ [] ∨ ct = strOf "Delete"
      · simp only [hcond, if_true, Option.some.injEq] at h
        cases h
        exact ⟨rfl, rfl⟩
      · simp [hcond] at h

/-! ## C7 — the header scenario -/

/-- **C7, counterexample.**  The claim's input begins directly with
`## Edit:`; `parseDiff` splits on `\n## `, so the lone section retains the
leading `## ` and the header regex (anchored at the section start) fails:
the decoder returns no file at all rather than the claimed `FileDiff`. -/
theorem c7_counterexample :
    parseDiffS (strOf "## Edit: src/a.js\n```diff\nL 3 + console.log(1)\nL 4 - console.log(2)\n```")
      = [] := by decide

/-- **C7 (amended).**  When the section appears as inside a real blob —
preceded by the `\n` that `fetchPRDiff` always emits before `## ` — the
decoder recovers exactly the claimed file: path `src/a.js`, change type
`Edit`, and the ordered ops (add, line 3, `console.log(1)`),
(remove, line 4, `console.log(2)`); inserting a line matching none of the
grammar rules (here a whitespace-only line) is dropped without the parse
failing. -/
theorem c7_decode_amended :
    parseDiffS (strOf "\n## Edit: src/a.js\n```diff\nL 3 + console.log(1)\nL 4 - console.log(2)\n```")
      = [⟨strOf "src/a.js", strOf "Edit",
          [⟨.add, strOf "3", strOf "console.log(1)"⟩,
           ⟨.del, strOf "4", strOf "console.log(2)"⟩], 1, 1⟩] ∧
    parseDiffS (strOf "\n## Edit: src/a.js\n```diff\nL 3 + console.log(1)\n   \nL 4 - console.log(2)\n```")
      = [⟨strOf "src/a.js", strOf "Edit",
          [⟨.add, strOf "3", strOf "console.log(1)"⟩,
           ⟨.del, strOf "4", strOf "console.log(2)"⟩], 1, 1⟩] := by
  constructor <;> decide

/-! ## C9 — change types outside the decoder's prefix set -/

/-- **C9.**  Change-type code 16 is rendered by the encoder as
`SourceRename`, a name outside the decoder's fixed prefix set; every file
the decoder ever outputs carries one of the five accepted names, so a
`## SourceRename:` section is silently absent from the decoded result —
as the concrete blob shows. -/
theorem c9_sourceRename_dropped :
    getChangeTypeName (some 16) = strOf "SourceRename" ∧
    (∀ d : Str, ∀ f ∈ parseDiffS d, f.changeType ∈ ctNames) ∧
    parseDiffS (strOf "\n## SourceRename: src/x.js\n```diff\n+ a\n```\n") = [] := by
  refine ⟨by decide, ?_, by decide⟩
  intro d f hf
  obtain ⟨sec, -, hsec⟩ := List.mem_filterMap.mp hf
  exact headerMatch_ct_mem (parseSection_changeType hsec).1

/-- **C9, witness.** -/
theorem c9_sourceRename_dropped_witness :
    (strOf "Edit") ∈ ctNames := by
  have h := c9_sourceRename_dropped.2.1
    (strOf "\n## Edit: p\n```diff\n+ a\n```\n")
    ⟨strOf "p", strOf "Edit", [⟨.add, [], strOf "a"⟩], 1, 0⟩
  exact h (by decide)

/-! ## C10 — inclusion rule for decoded sections -/

/-- **C10.**  A section whose header matches is included in the decoder
output exactly when it has at least one decoded line or its change type is
`Delete`: with zero parsed ops it is kept iff the type is `Delete`, and
with at least one op it is always kept. -/
theorem c10_inclusion_rule :
    ∀ (sec ct path : Str), trimS sec ≠ [] → headerMatchS sec = some (ct, path) →
      (sectionLines sec = [] → ((parseSection sec).isSome ↔ ct = strOf "Delete")) ∧
      (sectionLines sec ≠ [] → (parseSection sec).isSome = true) := by
  intro sec ct path h0 hh
  unfold parseSection
  rw [hh]
  simp only [h0, if_false]
  constructor
  · intro hempty
    simp only [hempty]
    by_cases hd : ct = strOf "Delete" <;> simp [hd]
  · intro hne
    simp [hne]

/-- **C10, witness.**  The `Delete` stub section emitted by the encoder has
no fenced block, hence zero ops, and is still included; a section with one
op is included regardless of type. -/
theorem c10_inclusion_rule_witness :
    (parseSection (strOf "Delete: f.txt\n(File deleted)\n")).isSome = true ∧
    (parseSection (strOf "Edit: p\n```diff\n+ a\n```\n")).isSome = true := by
  constructor
  · exact ((c10_inclusion_rule (strOf "Delete: f.txt\n(File deleted)\n")
      (strOf "Delete") (strOf "f.txt") (by decide) (by decide)).1 (by decide)).mpr
      (by decide)
  · exact (c10_inclusion_rule (strOf "Edit: p\n```diff\n+ a\n```\n")
      (strOf "Edit") (strOf "p") (by decide) (by decide)).2 (by decide)

/-! ## C8 — output-line caps of the differ -/

/-- `mapIdxFrom` preserves length. -/
theorem mapIdxFrom_length (f : Nat → Str → Str) :
    ∀ (i : Nat) (l : List Str), (mapIdxFrom f i l).length = l.length := by
  intro i l
  induction l generalizing i with
  | nil => rfl
  | cons x xs ih => simp [mapIdxFrom, ih]

/-- **C8.**  In changes-only and changes-context modes the differ emits at
most 150 output lines (`result.slice(0, 150)`); in full-file mode at most
200 (`newLines.slice(0, 200)`).  Changes beyond these caps are silently
dropped from the emitted op sequence. -/
theorem c8_line_caps :
    ∀ (oldC newC : Str) (scope : Scope) (ctx : Nat),
      (emittedLines oldC newC scope ctx).length ≤
        match scope with
        | .fullFile => 200
        | _ => 150 := by
  intro oldC newC scope ctx
  cases scope with
  | fullFile =>
    simp only [emittedLines, mapIdxFrom_length]
    calc ((splitNl newC).take 200).length ≤ 200 := by
          rw [List.length_take]; exact min_le_left _ _
  | changesOnly =>
    simp only [emittedLines]
    rw [List.length_take]; exact min_le_left _ _
  | changesContext =>
    simp only [emittedLines]
    rw [List.length_take]; exact min_le_left _ _

/-! ## C3 — strategy chain order and fallback -/

/-- **C3.**  The discoverer runs iteration-changes, commit-changes and
branch-diff in that order, the first non-empty result winning; whenever
strategies 1 and 2 both come back empty, strategy 3 is invoked and its
result returned; and a pipeline whose initial details request succeeded
always completes without surfacing an error. -/
theorem c3_strategy_chain :
    (∀ d : DiscoveryEnv,
      (strategy1 d ≠ [] → discover d = strategy1 d) ∧
      (strategy1 d = [] → strategy2 d ≠ [] → discover d = strategy2 d) ∧
      (strategy1 d = [] → strategy2 d = [] → discover d = strategy3 d)) ∧
    (∀ (env : PipelineEnv) (pr : PRData), env.prResp = .ok pr →
      (fetchPRDiffResult env).isOk = true) := by
  constructor
  · intro d
    refine ⟨fun h1 => ?_, fun h1 h2 => ?_, fun h1 h2 => ?_⟩ <;>
      simp [discover, h1, *]
  · intro env pr hpr
    unfold fetchPRDiffResult
    rw [hpr]
    rfl

/-- **C3, witness.** -/
theorem c3_strategy_chain_witness :
    discover c3Denv = [c3Entry] ∧ (fetchPRDiffResult c3PEnv).isOk = true := by
  have h := c3_strategy_chain
  constructor
  · have h3 := (h.1 c3Denv).2.2 (by decide) (by decide)
    rw [h3]; decide
  · exact h.2 c3PEnv ⟨strOf "T", none, strOf "s", strOf "t", none⟩ rfl

/-! ## C6 — auth failures -/

/-- **C6, counterexample.**  A 401 inside strategy 1 is not fatal: the
fallback runs and the pipeline succeeds. -/
theorem c6_counterexample :
    c6Env.denv.iterResp = .fail 401 ∧
    discover c6Env.denv = [c6Entry] ∧
    (fetchPRDiffResult c6Env).isOk = true := by
  refine ⟨rfl, by decide, by decide⟩

/-- **C6 (amended).**  A 401 or 403 on the initial pull-request details
request is fatal — surfaced verbatim, with no discovery strategy
attempted; any HTTP failure *inside* a discovery strategy (of whatever
status, 401/403 included) is treated as that strategy producing nothing,
and a pipeline whose details request succeeded never surfaces an error. -/
theorem c6_auth_amended :
    ∀ env : PipelineEnv,
      (env.prResp = .fail 401 →
        fetchPRDiffResult env = .error (strOf "Azure DevOps token is invalid or expired")) ∧
      (env.prResp = .fail 403 →
        fetchPRDiffResult env = .error (strOf "Access denied. Check your token permissions.")) ∧
      (∀ pr, env.prResp = .ok pr → (fetchPRDiffResult env).isOk = true) := by
  intro env
  refine ⟨fun h => ?_, fun h => ?_, fun pr h => ?_⟩ <;>
    (unfold fetchPRDiffResult; rw [h]) <;> rfl

/-- **C6, witness.** -/
theorem c6_auth_amended_witness :
    fetchPRDiffResult ⟨.fail 401, c3Denv, fun _ => ⟨.fail 1, .fail 1, .fail 1, .fail 1, false⟩, .changesOnly⟩
      = .error (strOf "Azure DevOps token is invalid or expired") := by
  exact (c6_auth_amended _).1 rfl

/-! ## C5 — content retrieval cascade -/

/-- **C5.**  For each file the retriever tries (a) the name-keyed
structured fetch, (b) the id-keyed structured fetch (the repository id
being known), (c) the raw-text fetch, first success winning; when all
three fail, the section rendered for the file is the
`(Could not fetch content - <status>)` placeholder, and the file loop
continues with the remaining files rather than aborting. -/
theorem c5_retrieval_cascade :
    ∀ (repoId : Option Str) (p : ItemPlan), repoId.isSome = true → p.throws = false →
      (∀ c, p.byName = .ok c → resolveContent repoId p = .structured c) ∧
      (∀ s c, p.byName = .fail s → p.byId = .ok c → resolveContent repoId p = .structured c) ∧
      (∀ s1 s2 t, p.byName = .fail s1 → p.byId = .fail s2 → p.raw = .ok t → t ≠ [] →
        resolveContent repoId p = .rawText t) ∧
      (∀ s1 s2 s3, p.byName = .fail s1 → p.byId = .fail s2 → p.raw = .fail s3 →
        ∀ (scope : Scope) (ctx : Nat) (ct path : Str), ct ≠ strOf "Delete" →
          sectionBody scope ctx repoId ct path p =
            .normal (sectionHdr ct path ++ strOf "(Could not fetch content - " ++
              natStr s3 ++ strOf ")\n")) ∧
      (∀ (scope : Scope) (ctx : Nat) (e : Entry) (rest : List (Entry × ItemPlan))
          (acc : Str) (total : Nat) (path fs : Str),
        total < maxTotalChars → e.effPath = some path →
        sectionBody scope ctx repoId (getChangeTypeName e.changeType) path p = .normal fs →
        processFiles scope ctx repoId ((e, p) :: rest) acc total =
          processFiles scope ctx repoId rest (acc ++ clampSection total fs)
            (total + (clampSection total fs).length)) := by
  intro repoId p hrep hthrow
  refine ⟨fun c h => ?_, fun s c h1 h2 => ?_, fun s1 s2 t h1 h2 h3 ht => ?_,
    fun s1 s2 s3 h1 h2 h3 scope ctx ct path hct => ?_,
    fun scope ctx e rest acc total path fs hlt heff hsec => ?_⟩
  · simp [resolveContent, hthrow, h]
  · simp [resolveContent, hthrow, h1, h2, hrep]
  · simp [resolveContent, hthrow, h1, h2, h3, hrep, ht]
  · simp [sectionBody, resolveContent, hthrow, h1, h2, h3, hrep, hct]
  · simp only [processFiles, if_neg (not_le.mpr hlt), heff, hsec]

/-! ## Helper lemmas on the differ -/

/-- A string is a prefix of itself extended. -/
theorem isPre_append (a b : Str) : isPre a (a ++ b) = true := by
  induction a with
  | nil => rfl
  | cons x xs ih => simp [isPre, ih]

/-- The first empty line of `ls ++ [[]]` is at index `ls.length` when all
lines of `ls` are non-empty. -/
theorem idxOfS_nil_append (ls : List Str) (h : ∀ l ∈ ls, l ≠ []) :
    idxOfS [] (ls ++ [[]]) = some ls.length := by
  induction ls with
  | nil => rfl
  | cons a as ih =>
    have ha : a ≠ [] := h a (.head _)
    have ih' := ih fun l hl => h l (.tail _ hl)
    simp only [List.cons_append, idxOfS, List.append_eq, if_neg ha, ih',
      Option.map_some', List.length_cons]

/-- `collectC` on two exhausted cursors returns the map unchanged. -/
theorem collectC_nil_nil (fuel oi ni : Nat) (m : List (Nat × Chg)) :
    collectC fuel [] [] oi ni m = m := by
  cases fuel <;> rfl

/-- A fold of `Map.set` calls with fresh, pairwise-distinct keys is an
append. -/
theorem setAll_of_disjoint :
    ∀ (xs m : List (Nat × Chg)),
      (∀ p ∈ xs, ∀ q ∈ m, q.1 ≠ p.1) → (xs.map Prod.fst).Nodup →
      setAll m xs = m ++ xs := by
  intro xs
  induction xs with
  | nil => intro m _ _; simp [setAll]
  | cons x xs ih =>
    intro m hdisj hnd
    have hany : (m.any fun q => q.1 = x.1) = false := by
      simp only [List.any_eq_false, decide_eq_true_eq]
      exact fun q hq => hdisj x (.head _) q hq
    have hstep : setAll m (x :: xs) = setAll (m ++ [x]) xs := by
      simp [setAll, mapSet, hany]
    rw [hstep, ih (m ++ [x]) ?_ (List.Nodup.of_cons hnd)]
    · simp
    · intro p hp q hq
      rcases List.mem_append.mp hq with hq | hq
      · exact hdisj p (.tail _ hp) q hq
      · rcases List.mem_singleton.mp hq with rfl
        have := (List.nodup_cons.mp hnd).1
        intro hcontra
        exact this (hcontra ▸ List.mem_map_of_mem Prod.fst hp)

/-- `filterMap` of an everywhere-`some` function is a `map`. -/
theorem filterMap_some_eq_map {α β : Type} (g : α → β) (l : List α) :
    List.filterMap (fun x => some (g x)) l = l.map g := by
  induction l with
  | nil => rfl
  | cons x xs ih => simp [List.filterMap_cons, ih]

/-- `filterMap` of an everywhere-`none` function is empty. -/
theorem filterMap_none_eq_nil {α β : Type} (l : List α) :
    List.filterMap (fun _ => (none : Option β)) l = [] := by
  induction l with
  | nil => rfl
  | cons x xs ih => simp [List.filterMap_cons, ih]

/-- Keys of an add run. -/
theorem addRun_keys (newR : List Str) (ni k : Nat) :
    (addRun newR ni k).map Prod.fst = (List.range k).map (fun j => ni + j) := by
  simp [addRun, List.map_map, Function.comp]

/-- The changed-new-line set of a pure add run. -/
theorem changedNew_addRun (newR : List Str) (ni k : Nat) :
    changedNew (addRun newR ni k) = (List.range k).map (fun j => ni + j) := by
  simp only [changedNew, addRun, List.filterMap_map]
  exact filterMap_some_eq_map _ _

/-- A pure add run yields no removed lines. -/
theorem changedOld_addRun (newR : List Str) (ni k : Nat) :
    changedOld (addRun newR ni k) = [] := by
  simp only [changedOld, addRun, List.filterMap_map]
  exact filterMap_none_eq_nil _

/-- The change map recorded for an empty old file (`''.split('\n')` is the
one-line `[""]`) against new lines `ls ++ [[]]` with `ls` all non-empty: a
single insertion run covering `ls`, the phantom empty old line matching
the trailing empty new line. -/
theorem collect_empty_old (ls : List Str) (hne : ∀ l ∈ ls, l ≠ [])
    (h0 : ls ≠ []) :
    collectChanges [[]] (ls ++ [[]]) = addRun (ls ++ [[]]) 0 ls.length := by
  obtain ⟨a, as, rfl⟩ := List.exists_cons_of_ne_nil h0
  have ha : a ≠ [] := hne a (.head _)
  have hfuel : ([[]] : List Str).length + ((a :: as) ++ [[]]).length
      = ((a :: as).length + 1) + 1 := by simp; omega
  unfold collectChanges
  rw [hfuel]
  show collectC (((a :: as).length + 1) + 1) [[]] (a :: (as ++ [[]])) 0 0 []
      = addRun ((a :: as) ++ [[]]) 0 (a :: as).length
  rw [collectC]
  rw [if_neg (Ne.symm ha)]
  have hidx1 : idxOfS [] (a :: (as ++ [[]])) = some (a :: as).length := by
    have := idxOfS_nil_append (a :: as) hne
    simpa using this
  have hidx2 : idxOfS a [[]] = none := by
    have h2 : ¬(([] : Str) = a) := Ne.symm ha
    simp [idxOfS, h2]
  rw [hidx1, hidx2]
  show collectC ((a :: as).length + 1) [[]] ((a :: (as ++ [[]])).drop (a :: as).length)
      0 (0 + (a :: as).length)
      (setAll [] (addRun (a :: (as ++ [[]])) 0 (a :: as).length))
    = addRun ((a :: as) ++ [[]]) 0 (a :: as).length
  have hdrop : (a :: (as ++ [[]])).drop (a :: as).length = [[]] := by
    have := List.drop_left (a :: as) [[]]
    simpa using this
  rw [hdrop]
  rw [collectC]
  rw [if_pos rfl]
  rw [collectC_nil_nil]
  rw [setAll_of_disjoint _ _ (by intro p hp q hq; cases hq) ?_]
  · simp
  · rw [addRun_keys]
    exact (List.nodup_range _).map fun a b => by omega

/-- The rendering loop over the first `n` new lines of an all-insertion
diff (`changedNewLines = {0, …, len-1}`, no removed lines) emits exactly
the `+`-prefixed new lines, in order. -/
theorem renderFold_all_adds (ls : List Str) :
    ∀ n, n ≤ ls.length →
      (List.range n).foldl
        (renderStep [[]] (ls ++ [[]]) .changesOnly 0 (List.range ls.length))
        ⟨[], [], -10⟩
      = ⟨[], (ls.take n).map (fun l => strOf "+ " ++ l),
          if n = 0 then (-10 : Int) else Int.ofNat (n - 1)⟩ := by
  intro n
  induction n with
  | zero => intro _; simp
  | succ n ih =>
    intro hle
    have hn : n < ls.length := hle
    rw [List.range_succ, List.foldl_append, ih (Nat.le_of_lt hn)]
    have hcont : (List.range ls.length).contains n = true :=
      List.elem_iff.mpr (List.mem_range.mpr hn)
    have hgetD : (ls ++ [[]]).getD n [] = ls.getD n [] :=
      List.getD_append _ _ _ n hn
    have hgetE : ls.getD n [] = ls[n] := by
      rw [List.getD_eq_getElem?_getD, List.getElem?_eq_getElem hn]
      rfl
    have htake : ls.take (n + 1) = ls.take n ++ [ls[n]] := by
      rw [List.take_succ, List.getElem?_eq_getElem hn]
      rfl
    simp only [List.foldl_cons, List.foldl_nil, renderStep, hcont, if_true,
      List.filter_nil, List.map_nil, hgetD, hgetE, htake, List.map_append,
      List.map_cons, List.map_nil, List.append_nil, List.nil_append]
    simp

/-- **C4, counterexample.**  `Differ("", "x")` does *not* produce one add
op and nothing else: JS `''.split('\n')` is `[""]`, so the phantom empty
old line pairs with `x` as a one-line modification, emitting a remove op
(`- `) before the add — where the claim requires exactly
`len(newLines) = 1` add op and zero remove ops. -/
theorem c4_counterexample :
    emittedLines [] (strOf "x") .changesOnly 0 = [strOf "- ", strOf "+ x"] ∧
    (emittedLines [] (strOf "x") .changesOnly 0).countP
      (fun l => isPre (strOf "- ") l) = 1 := by
  constructor <;> decide

/-- **C4 (amended).**  For new content whose split ends in the empty line
produced by a trailing newline, with every other line non-empty (and at
most 150 of them, below the output cap), the differ on empty old content
emits exactly one `+`-op per non-empty new line, in order — that is,
`len(newLines) - 1` add ops and zero remove ops; the phantom empty old
line silently consumes the trailing empty new line. -/
theorem c4_empty_old_adds :
    ∀ (newC : Str) (ls : List Str),
      splitNl newC = ls ++ [[]] →
      (∀ l ∈ ls, l ≠ []) →
      ls.length ≤ 150 →
      emittedLines [] newC .changesOnly 0 = ls.map (fun l => strOf "+ " ++ l) := by
  intro newC ls hsplit hne hlen
  show (diffResultLines (splitNl []) (splitNl newC) .changesOnly 0).take 150
      = ls.map (fun l => strOf "+ " ++ l)
  rw [hsplit]
  show (diffResultLines [[]] (ls ++ [[]]) .changesOnly 0).take 150
      = ls.map (fun l => strOf "+ " ++ l)
  by_cases h0 : ls = []
  · subst h0; decide
  · have hm := collect_empty_old ls hne h0
    have hlen1 : ls.length ≥ 1 := by
      cases ls with
      | nil => exact absurd rfl h0
      | cons a as => simp
    have hmne : addRun (ls ++ [[]]) 0 ls.length ≠ [] := by
      intro hcontra
      have h1 : (addRun (ls ++ [[]]) 0 ls.length).length = ls.length := by
        simp [addRun]
      rw [hcontra] at h1
      simp at h1
      omega
    unfold diffResultLines
    rw [hm]
    rw [if_neg hmne]
    rw [changedNew_addRun, changedOld_addRun]
    have hzero : (List.range ls.length).map (fun j => 0 + j) = List.range ls.length := by
      simp
    rw [hzero]
    have hlen2 : (ls ++ [[]]).length = ls.length + 1 := by simp
    rw [hlen2, List.range_succ, List.foldl_append,
      renderFold_all_adds ls ls.length (le_refl _)]
    have hcont : (List.range ls.length).contains ls.length = false := by
      rw [Bool.eq_false_iff]
      intro h
      exact absurd (List.mem_range.mp (List.elem_iff.mp h)) (lt_irrefl _)
    simp only [List.foldl_cons, List.foldl_nil, renderStep, hcont]
    simp only [List.take_length, List.map_nil, List.append_nil]
    have : (Scope.changesOnly = Scope.changesContext) = False := by simp
    simp only [this, false_and, if_false, Bool.false_eq_true]
    simp only [List.map_nil, List.append_nil]
    rw [List.take_of_length_le (by rw [List.length_map]; exact hlen)]

/-- **C4, witness.** -/
theorem c4_empty_old_adds_witness :
    emittedLines [] (strOf "x\ny\n") .changesOnly 0 = [strOf "+ x", strOf "+ y"] := by
  have h := c4_empty_old_adds (strOf "x\ny\n") [strOf "x", strOf "y"]
    (by decide) (by decide) (by decide)
  exact h

/-- **C5, witness.** -/
theorem c5_retrieval_cascade_witness :
    sectionBody Scope.changesOnly 0 (some (strOf "rid")) (strOf "Edit") (strOf "/p.txt") c5Plan =
      .normal (sectionHdr (strOf "Edit") (strOf "/p.txt") ++
        strOf "(Could not fetch content - " ++ natStr 403 ++ strOf ")\n") := by
  exact (c5_retrieval_cascade (some (strOf "rid")) c5Plan (by decide) (by decide)).2.2.2.1
    500 404 403 (by decide) (by decide) (by decide) Scope.changesOnly 0
    (strOf "Edit") (strOf "/p.txt") (by decide)

/-! ## Helper lemmas for the encode/decode round trip (C2) -/

/-- `isPre` fails on lists with different heads. -/
theorem isPre_ne_head {a b : Char} (as bs : Str) (h : a ≠ b) :
    isPre (a :: as) (b :: bs) = false := by
  simp [isPre, h]

/-- The splitter leaves a separator-free string whole. -/
theorem splitF_no_sep (sep : Str) :
    ∀ (fuel : Nat) (acc s : Str), s.length < fuel →
      containsS sep s = false → splitF sep fuel acc s = [acc.reverse ++ s] := by
  intro fuel
  induction fuel with
  | zero => intro acc s h; omega
  | succ f ih =>
    intro acc s hlen hcon
    cases s with
    | nil =>
      simp only [containsS] at hcon
      simp only [splitF]
      rw [if_neg]
      · simp
      · intro hand
        rw [hcon] at hand
        exact absurd hand.2 (by simp)
    | cons c rest =>
      simp only [containsS, Bool.or_eq_false_iff] at hcon
      simp only [splitF]
      rw [if_neg (fun hand => by rw [hcon.1] at hand; exact absurd hand.2 (by simp))]
      rw [ih (c :: acc) rest (by simp at hlen ⊢; omega) hcon.2]
      simp

/-- Splitting `sep ++ inner` with no further separator occurrence yields
exactly the empty head piece and `inner`. -/
theorem splitOnS_sep_lead (sep inner : Str) (hsep : sep ≠ [])
    (hcon : containsS sep inner = false) :
    splitOnS sep (sep ++ inner) = [[], inner] := by
  unfold splitOnS
  have hlen : (sep ++ inner).length + 1 = (sep.length + inner.length) + 1 := by
    simp
  rw [hlen]
  simp only [splitF]
  rw [if_pos ⟨hsep, isPre_append sep inner⟩]
  rw [List.drop_left]
  have hpos : 0 < sep.length := List.length_pos.mpr hsep
  rw [splitF_no_sep sep (sep.length + inner.length) [] inner (by omega) hcon]
  simp

/-- `nlOk` strings do not contain the section separator. -/
theorem nlOk_no_sep : ∀ s : Str, nlOk s = true → containsS (strOf "\n## ") s = false := by
  intro s
  induction s with
  | nil => intro _; rfl
  | cons c rest ih =>
    intro h
    simp only [nlOk, Bool.and_eq_true] at h
    obtain ⟨hg, hrest⟩ := h
    simp only [containsS, Bool.or_eq_false_iff]
    refine ⟨?_, ih hrest⟩
    by_cases hc : c = '\n'
    · subst hc
      simp only [if_pos rfl] at hg
      cases rest with
      | nil => rfl
      | cons d ds =>
        simp only at hg
        have hd : d ≠ '#' := by
          intro hcontra
          subst hcontra
          exact absurd hg (by decide)
        have : isPre (strOf "\n## ") ('\n' :: d :: ds)
            = isPre (strOf "## ") (d :: ds) := by simp [isPre]
        rw [this]
        exact isPre_ne_head _ _ (Ne.symm hd)
    · exact isPre_ne_head _ _ (Ne.symm hc)

/-- Newline-free prefixes are transparent for `nlOk`. -/
theorem nlOk_append_noNl (a : Str) (ha : ∀ c ∈ a, c ≠ '\n') :
    ∀ b, nlOk (a ++ b) = nlOk b := by
  induction a with
  | nil => intro b; rfl
  | cons x xs ih =>
    intro b
    have hx : x ≠ '\n' := ha x (.head _)
    show nlOk (x :: (xs ++ b)) = nlOk b
    simp only [nlOk, if_neg hx, Bool.true_and]
    exact ih (fun c hc => ha c (.tail _ hc)) b

/-- A newline followed by a fence/op character is transparent for
`nlOk`. -/
theorem nlOk_cons_nl (d : Char) (ds : Str)
    (hd : (d = '`' || d = '+' || d = '-') = true) :
    nlOk ('\n' :: d :: ds) = nlOk (d :: ds) := by
  simp only [nlOk]
  simp [hd]

/-- `joinNl` of a non-empty line list starts with the first line's head
character, whatever follows. -/
theorem joinNl_head_append (ls' : List Str) (d : Char) (ds : Str) :
    ∀ y, ∃ tail, joinNl ((d :: ds) :: ls') ++ y = d :: tail := by
  cases ls' <;> intro y <;> exact ⟨_, rfl⟩

/-- A joined block of newline-free lines, each starting with a fence/op
character, is transparent for `nlOk`. -/
theorem nlOk_join : ∀ (lines : List Str),
    (∀ l ∈ lines, ∀ c ∈ l, c ≠ '\n') →
    (∀ l ∈ lines, ∃ d ds, l = d :: ds ∧ (d = '`' || d = '+' || d = '-') = true) →
    ∀ b, nlOk (joinNl lines ++ b) = nlOk b := by
  intro lines
  induction lines with
  | nil => intro _ _ b; rfl
  | cons x xs ih =>
    intro hnl hhead b
    cases xs with
    | nil =>
      show nlOk (x ++ b) = nlOk b
      exact nlOk_append_noNl x (hnl x (.head _)) b
    | cons y ys =>
      show nlOk ((x ++ '\n' :: joinNl (y :: ys)) ++ b) = nlOk b
      rw [List.append_assoc, List.cons_append]
      rw [nlOk_append_noNl x (hnl x (.head _))]
      obtain ⟨d, ds, hy, hd⟩ := hhead y (.tail _ (.head _))
      obtain ⟨tail, htail⟩ := joinNl_head_append ys d ds b
      rw [hy, htail, nlOk_cons_nl d tail hd, ← htail, ← hy]
      exact ih (fun l hl => hnl l (.tail _ hl)) (fun l hl => hhead l (.tail _ hl)) b

/-- Characters of a joined block come from its lines or are the inserted
newlines. -/
theorem joinNl_mem : ∀ (lines : List Str) (x : Char), x ∈ joinNl lines →
    x = '\n' ∨ ∃ l ∈ lines, x ∈ l := by
  intro lines
  induction lines with
  | nil => intro x hx; cases hx
  | cons a as ih =>
    intro x hx
    cases as with
    | nil => exact Or.inr ⟨a, .head _, hx⟩
    | cons b bs =>
      rcases List.mem_append.mp hx with h | h
      · exact Or.inr ⟨a, .head _, h⟩
      · rcases List.mem_cons.mp h with rfl | h2
        · exact Or.inl rfl
        · rcases ih x h2 with h3 | ⟨l, hl, hxl⟩
          · exact Or.inl h3
          · exact Or.inr ⟨l, .tail _ hl, hxl⟩

/-- Backtick-free prefixes are transparent for the fence scanner. -/
theorem fenceScan_skip (a : Str) (ha : ∀ x ∈ a, x ≠ '`') :
    ∀ b, fenceScan (a ++ b) = fenceScan b := by
  induction a with
  | nil => intro b; rfl
  | cons x xs ih =>
    intro b
    have hx : x ≠ '`' := ha x (.head _)
    have h1 : isPre (strOf "```diff\n") (x :: (xs ++ b)) = false :=
      isPre_ne_head _ _ (Ne.symm hx)
    have h2 : isPre (strOf "```\n") (x :: (xs ++ b)) = false :=
      isPre_ne_head _ _ (Ne.symm hx)
    show fenceScan (x :: (xs ++ b)) = fenceScan b
    simp only [fenceScan, h1, h2, Bool.false_eq_true, if_false]
    exact ih (fun c hc => ha c (.tail _ hc)) b

/-- The lazy capture collects a backtick-free block up to the closing
fence. -/
theorem fenceClose_through (a : Str) (ha : ∀ x ∈ a, x ≠ '`') :
    ∀ z, fenceClose (a ++ '`' :: '`' :: '`' :: z) = some a := by
  induction a with
  | nil =>
    intro z
    show fenceClose ('`' :: '`' :: '`' :: z) = some []
    have h1 : isPre (strOf "```") ('`' :: '`' :: '`' :: z) = true := rfl
    simp [fenceClose, h1]
  | cons x xs ih =>
    intro z
    have hx : x ≠ '`' := ha x (.head _)
    have h1 : isPre (strOf "```") (x :: (xs ++ '`' :: '`' :: '`' :: z)) = false :=
      isPre_ne_head _ _ (Ne.symm hx)
    show fenceClose (x :: (xs ++ '`' :: '`' :: '`' :: z)) = some (x :: xs)
    simp only [fenceClose, h1, Bool.false_eq_true, if_false]
    rw [ih (fun c hc => ha c (.tail _ hc)) z]
    rfl

/-- `split('\n')` peels one newline-free line off the front. -/
theorem splitNl_append_line (l : Str) (hl : ∀ c ∈ l, c ≠ '\n') :
    ∀ rest, splitNl (l ++ '\n' :: rest) = l :: splitNl rest := by
  induction l with
  | nil =>
    intro rest
    show splitNl ('\n' :: rest) = [] :: splitNl rest
    simp [splitNl]
  | cons c cs ih =>
    intro rest
    have hc : c ≠ '\n' := hl c (.head _)
    show splitNl (c :: (cs ++ '\n' :: rest)) = (c :: cs) :: splitNl rest
    simp only [splitNl, if_neg hc]
    rw [ih (fun x hx => hl x (.tail _ hx)) rest]

/-- `split('\n')` of a joined block followed by a newline recovers the
lines (plus the final piece of whatever follows). -/
theorem splitNl_join : ∀ (lines : List Str),
    (∀ l ∈ lines, ∀ c ∈ l, c ≠ '\n') → lines ≠ [] →
    ∀ rest, splitNl (joinNl lines ++ '\n' :: rest) = lines ++ splitNl rest := by
  intro lines
  induction lines with
  | nil => intro _ h; exact absurd rfl h
  | cons x xs ih =>
    intro hnl _ rest
    cases xs with
    | nil =>
      show splitNl (x ++ '\n' :: rest) = [x] ++ splitNl rest
      rw [splitNl_append_line x (hnl x (.head _))]
      rfl
    | cons y ys =>
      show splitNl ((x ++ '\n' :: joinNl (y :: ys)) ++ '\n' :: rest)
          = (x :: y :: ys) ++ splitNl rest
      rw [List.append_assoc, List.cons_append]
      rw [splitNl_append_line x (hnl x (.head _))]
      rw [ih (fun l hl => hnl l (.tail _ hl)) (by simp) rest]
      rfl

/-- Trimming a leading whitespace character. -/
theorem trimS_cons_ws (c : Char) (hc : wsChar c = true) (t : Str) :
    trimS (c :: t) = trimS t := by
  simp [trimS, List.dropWhile_cons, hc]

/-- `dropWhile` never lengthens a list. -/
theorem dropWhile_length_le (p : Char → Bool) :
    ∀ l : Str, (l.dropWhile p).length ≤ l.length := by
  intro l
  induction l with
  | nil => exact le_refl _
  | cons x xs ih =>
    rw [List.dropWhile_cons]
    by_cases hx : p x = true
    · rw [if_pos hx]
      exact le_trans ih (by simp)
    · rw [if_neg hx]

/-- Trimming never lengthens a string. -/
theorem trimS_length_le (s : Str) : (trimS s).length ≤ s.length := by
  simp only [trimS, List.length_reverse]
  calc ((s.dropWhile wsChar).reverse.dropWhile wsChar).length
      ≤ (s.dropWhile wsChar).reverse.length := dropWhile_length_le _ _
    _ = (s.dropWhile wsChar).length := List.length_reverse _
    _ ≤ s.length := dropWhile_length_le _ _

/-- A trim-fixed non-empty string starts with a non-whitespace
character. -/
theorem trim_fix_head_not_ws (c : Char) (cs : Str)
    (h : trimS (c :: cs) = c :: cs) : wsChar c = false := by
  by_contra hw
  rw [Bool.not_eq_false] at hw
  have h1 := trimS_cons_ws c hw cs
  rw [h] at h1
  have h2 := trimS_length_le cs
  rw [← h1] at h2
  simp at h2

/-- A non-whitespace-headed string trims to something non-empty. -/
theorem trimS_cons_not_ws_ne (c : Char) (hc : wsChar c = false) (t : Str) :
    trimS (c :: t) ≠ [] := by
  simp only [trimS, List.dropWhile_cons, hc, Bool.false_eq_true, if_false]
  intro hcontra
  have h1 : ((c :: t).reverse.dropWhile wsChar) = [] := by
    have := congrArg List.reverse hcontra
    simpa using this
  rw [List.dropWhile_eq_nil_iff] at h1
  have := h1 c (by simp)
  rw [hc] at this
  cases this

/-- `takeWhile` passes over a block where the predicate holds. -/
theorem takeWhile_append_all {p : Char → Bool} (a : Str)
    (h : ∀ x ∈ a, p x = true) :
    ∀ b, (a ++ b).takeWhile p = a ++ b.takeWhile p := by
  induction a with
  | nil => intro b; rfl
  | cons x xs ih =>
    intro b
    show ((x :: (xs ++ b)).takeWhile p) = x :: (xs ++ b.takeWhile p)
    rw [List.takeWhile_cons, if_pos (h x (.head _))]
    rw [ih (fun c hc => h c (.tail _ hc)) b]

/-- The header capture `\s*(.+)` on `' ' ++ path ++ '\n' ++ rest` for a
non-blank, newline-free path returns the path. -/
theorem capAfterColon_sp (c : Char) (cs rest : Str) (hw : wsChar c = false)
    (hnl : ∀ x ∈ c :: cs, x ≠ '\n') :
    capAfterColon (' ' :: ((c :: cs) ++ '\n' :: rest)) = some (c :: cs) := by
  have htw : (' ' :: ((c :: cs) ++ '\n' :: rest)).takeWhile wsChar = [' '] := by
    rw [List.takeWhile_cons, if_pos (by decide)]
    rw [List.cons_append, List.takeWhile_cons, if_neg (by rw [hw]; simp)]
  unfold capAfterColon
  rw [htw]
  rw [if_pos (by simp)]
  show some (((c :: cs) ++ '\n' :: rest).takeWhile (fun x => x ≠ '\n')) = _
  rw [takeWhile_append_all (c :: cs) (fun x hx => by
    rw [decide_eq_true_iff]; exact hnl x hx)]
  rw [List.takeWhile_cons, if_neg (by simp)]
  simp

/-- Skip one non-matching change-type word in the header scan. -/
theorem findSome?_header_skip (p : Str) (ps : List Str) (s : Str)
    (h : isPre (p ++ [':']) s = false) :
    List.findSome? (fun q =>
      if isPre (q ++ [':']) s = true then
        (capAfterColon (s.drop (q.length + 1))).map fun t => (q, trimS t)
      else none) (p :: ps)
    = List.findSome? (fun q =>
      if isPre (q ++ [':']) s = true then
        (capAfterColon (s.drop (q.length + 1))).map fun t => (q, trimS t)
      else none) ps := by
  rw [List.findSome?_cons]
  simp [h]

/-- Resolve the matching change-type word in the header scan. -/
theorem findSome?_header_hit (p : Str) (ps : List Str) (s t : Str)
    (hpre : isPre (p ++ [':']) s = true)
    (hcap : capAfterColon (s.drop (p.length + 1)) = some t) :
    List.findSome? (fun q =>
      if isPre (q ++ [':']) s = true then
        (capAfterColon (s.drop (q.length + 1))).map fun t => (q, trimS t)
      else none) (p :: ps)
    = some (p, trimS t) := by
  rw [List.findSome?_cons]
  simp [hpre, hcap]

/-- The decoder's header match on an encoder-shaped header line: the
change-type word is recovered as matched prefix, the path as the trimmed
capture. -/
theorem headerMatchS_encoded (ct : Str) (hct : ct ∈ ctNames)
    (c : Char) (cs rest : Str) (hw : wsChar c = false)
    (hnl : ∀ x ∈ c :: cs, x ≠ '\n') :
    headerMatchS (ct ++ ':' :: ' ' :: ((c :: cs) ++ '\n' :: rest))
      = some (ct, trimS (c :: cs)) := by
  have hdrop : (ct ++ ':' :: ' ' :: ((c :: cs) ++ '\n' :: rest)).drop (ct.length + 1)
      = ' ' :: ((c :: cs) ++ '\n' :: rest) := by
    have h2 := List.drop_left (ct ++ [':']) (' ' :: ((c :: cs) ++ '\n' :: rest))
    simpa [List.append_assoc] using h2
  have hcap : capAfterColon
      ((ct ++ ':' :: ' ' :: ((c :: cs) ++ '\n' :: rest)).drop (ct.length + 1))
      = some (c :: cs) := by
    rw [hdrop]
    exact capAfterColon_sp c cs rest hw hnl
  have hpre : isPre (ct ++ [':']) (ct ++ ':' :: ' ' :: ((c :: cs) ++ '\n' :: rest))
      = true := by
    have h3 : ct ++ ':' :: ' ' :: ((c :: cs) ++ '\n' :: rest)
        = ct ++ [':'] ++ (' ' :: ((c :: cs) ++ '\n' :: rest)) := by
      simp
    rw [h3]
    exact isPre_append _ _
  simp only [ctNames, List.mem_cons, List.not_mem_nil, or_false] at hct
  unfold headerMatchS ctNames
  rcases hct with rfl | rfl | rfl | rfl | rfl
  · rw [findSome?_header_hit _ _ _ _ hpre hcap]
  · rw [findSome?_header_skip _ _ _ (isPre_ne_head _ _ (by decide))]
    rw [findSome?_header_hit _ _ _ _ hpre hcap]
  · rw [findSome?_header_skip _ _ _ (isPre_ne_head _ _ (by decide))]
    rw [findSome?_header_skip _ _ _ (isPre_ne_head _ _ (by decide))]
    rw [findSome?_header_hit _ _ _ _ hpre hcap]
  · rw [findSome?_header_skip _ _ _ (isPre_ne_head _ _ (by decide))]
    rw [findSome?_header_skip _ _ _ (isPre_ne_head _ _ (by decide))]
    rw [findSome?_header_skip _ _ _ (isPre_ne_head _ _ (by decide))]
    rw [findSome?_header_hit _ _ _ _ hpre hcap]
  · rw [findSome?_header_skip _ _ _ (isPre_ne_head _ _ (by decide))]
    rw [findSome?_header_skip _ _ _ (isPre_ne_head _ _ (by decide))]
    rw [findSome?_header_skip _ _ _ (isPre_ne_head _ _ (by decide))]
    rw [findSome?_header_skip _ _ _ (isPre_ne_head _ _ (by decide))]
    rw [findSome?_header_hit _ _ _ _ hpre hcap]

/-! ## C1 — the global character budget -/

/-- Budget invariant of the file loop: starting from an accumulator whose
length equals the counter, and with no file landing in the `catch`
handler, the loop output stays within
`max total (MAX_TOTAL_CHARS + |clamp suffix|)` plus the break note. -/
theorem processFiles_length_le (scope : Scope) (ctx : Nat) (repoId : Option Str) :
    ∀ (pairs : List (Entry × ItemPlan)) (acc : Str) (total : Nat),
      acc.length = total →
      (∀ pr ∈ pairs, sectionErrored scope ctx repoId pr = false) →
      (processFiles scope ctx repoId pairs acc total).length ≤
        max total (maxTotalChars + clampSfx.length) + truncMarker.length := by
  intro pairs
  induction pairs with
  | nil =>
    intro acc total hacc _
    simp only [processFiles]
    rw [hacc]
    exact le_trans (le_max_left _ _) (Nat.le_add_right _ _)
  | cons ep rest ih =>
    intro acc total hacc hsafe
    obtain ⟨e, p⟩ := ep
    have hsafe1 := hsafe (e, p) (.head _)
    have hsafeR : ∀ pr ∈ rest, sectionErrored scope ctx repoId pr = false :=
      fun pr hpr => hsafe pr (.tail _ hpr)
    simp only [processFiles]
    by_cases hbreak : maxTotalChars ≤ total
    · rw [if_pos hbreak, List.length_append, hacc]
      exact Nat.add_le_add_right (le_max_left _ _) _
    · rw [if_neg hbreak]
      have hlt : total < maxTotalChars := Nat.lt_of_not_le hbreak
      split
      next heff => exact ih acc total hacc hsafeR
      next path heff =>
        split
        next hsec =>
          exfalso
          simp only [sectionErrored, heff] at hsafe1
          rw [hsec] at hsafe1
          simp at hsafe1
        next fs hsec =>
          by_cases hfit : total + fs.length ≤ maxTotalChars
          · rw [if_pos hfit]
            refine le_trans (ih (acc ++ fs) (total + fs.length)
              (by rw [List.length_append, hacc]) hsafeR) ?_
            apply Nat.add_le_add_right
            exact max_le (le_trans (le_trans hfit (Nat.le_add_right _ _))
              (le_max_right _ _)) (le_max_right _ _)
          · rw [if_neg hfit]
            exact ih acc total hacc hsafeR
        next fs hsec =>
          have hfs1 : total + (clampSection total fs).length ≤
              maxTotalChars + clampSfx.length := by
            unfold clampSection
            by_cases hover : maxTotalChars < total + fs.length
            · rw [if_pos hover, List.length_append, List.length_take]
              have h1 : min (maxTotalChars - total - 50) fs.length ≤
                  maxTotalChars - total - 50 := Nat.min_le_left _ _
              omega
            · rw [if_neg hover]
              omega
          refine le_trans (ih (acc ++ clampSection total fs)
            (total + (clampSection total fs).length)
            (by rw [List.length_append, hacc]) hsafeR) ?_
          apply Nat.add_le_add_right
          exact max_le (le_trans hfs1 (le_max_right _ _)) (le_max_right _ _)

/-- **C1 (amended).**  Provided no per-file exception fires (the `catch`
path appends without budget accounting), the blob length is bounded by
`max(header, MAX_TOTAL_CHARS + 20)` plus the lengths of the fixed break
note, the no-changes warning and the more-files note — i.e. the 12000
budget up to bounded marker slack, the header counting toward the budget;
and when more than `MAX_FILES = 10` entries are discovered the blob ends
with the marker counting exactly `changeEntries.length - 10` — only the
files dropped by the file cap, not those skipped when the budget ran
out. -/
theorem c1_budget_amended :
    ∀ (env : BlobEnv) (entries : List Entry) (planOf : Entry → ItemPlan)
      (scope : Scope) (ctx : Nat),
      (∀ pr ∈ ((sortedEntries entries).take maxFiles).map (fun e => (e, planOf e)),
        sectionErrored scope ctx env.repoId pr = false) →
      (buildBlob env entries planOf scope ctx).length ≤
        max (headerFor env entries.length).length (maxTotalChars + clampSfx.length)
          + truncMarker.length + noChangesWarn.length
          + (moreNoteOf entries.length).length
      ∧ (entries ≠ [] → ∃ body, buildBlob env entries planOf scope ctx
          = body ++ moreNoteOf entries.length) := by
  intro env entries planOf scope ctx hsafe
  constructor
  · by_cases h0 : entries = []
    · simp only [buildBlob, if_pos h0, List.length_append]
      have := le_max_left (headerFor env entries.length).length
        (maxTotalChars + clampSfx.length)
      omega
    · simp only [buildBlob, if_neg h0, List.length_append]
      have hp := processFiles_length_le scope ctx env.repoId
        (((sortedEntries entries).take maxFiles).map fun e => (e, planOf e))
        (headerFor env entries.length) (headerFor env entries.length).length
        rfl hsafe
      omega
  · intro h0
    simp only [buildBlob, if_neg h0]
    exact ⟨_, rfl⟩

/-- **C1, witness.** -/
theorem c1_budget_amended_witness :
    (buildBlob ⟨strOf "T", none, strOf "s", strOf "t", none⟩
        [⟨some (strOf "/a.txt"), none, some 4⟩]
        (fun _ => ⟨.fail 1, .fail 1, .fail 1, .fail 1, false⟩) .changesOnly 0).length ≤
      max (headerFor ⟨strOf "T", none, strOf "s", strOf "t", none⟩ 1).length
          (maxTotalChars + clampSfx.length)
        + truncMarker.length + noChangesWarn.length + (moreNoteOf 1).length := by
  exact (c1_budget_amended ⟨strOf "T", none, strOf "s", strOf "t", none⟩
    [⟨some (strOf "/a.txt"), none, some 4⟩]
    (fun _ => ⟨.fail 1, .fail 1, .fail 1, .fail 1, false⟩) .changesOnly 0
    (by decide)).1

/-- A loop entered with the budget already exhausted emits only the
count-less break note. -/
theorem processFiles_break (scope : Scope) (ctx : Nat) (repoId : Option Str)
    (e : Entry) (p : ItemPlan) (rest : List (Entry × ItemPlan)) (acc : Str)
    (total : Nat) (h : maxTotalChars ≤ total) :
    processFiles scope ctx repoId ((e, p) :: rest) acc total = acc ++ truncMarker := by
  simp only [processFiles, if_pos h]

/-- **C1, counterexample.**  Eleven files are discovered and *none* is
shown: the header alone exceeds the budget, so the loop breaks before the
first section and the blob is exactly header + count-less break note +
`MAX_FILES` marker.  The only omitted-file count appearing in the blob is
the marker's `1` (`changeEntries.length - MAX_FILES`), although 11 files
are actually not shown — refuting the claim that the marker's count equals
the number of files not shown whenever files are omitted for budget or
file-count reasons. -/
theorem c1_counterexample :
    c1CEntries.length = 11 ∧
    buildBlob c1CEnv c1CEntries (fun _ => c1CPlan) .changesOnly 0
      = headerFor c1CEnv 11 ++ truncMarker ++ moreNoteOf 11 ∧
    truncMarker = strOf "\n(Content truncated - size limit reached)\n" ∧
    moreNoteOf 11 = strOf "\n---\n... and 1 more files not shown\n" := by
  have hlen11 : c1CEntries.length = 11 := by decide
  refine ⟨hlen11, ?_, rfl, by decide⟩
  have hne : c1CEntries ≠ [] := by decide
  have hbig : maxTotalChars ≤ (headerFor c1CEnv c1CEntries.length).length := by
    rw [hlen11]
    simp only [headerFor, c1CEnv, strTruthy, maxTotalChars, List.length_append,
      List.length_replicate]
    omega
  have hpairs : ((sortedEntries c1CEntries).take maxFiles).map
      (fun e => (e, c1CPlan)) ≠ [] := by decide
  obtain ⟨pr0, rest0, hcons⟩ := List.exists_cons_of_ne_nil hpairs
  obtain ⟨e0, p0⟩ := pr0
  simp only [buildBlob, if_neg hne]
  rw [hcons, processFiles_break _ _ _ _ _ _ _ _ hbig, hlen11]

/-! ## C2 — encode/decode round trip -/

/-- An indexed default read is a list element or the default. -/
theorem getD_mem_or (l : List Str) (i : Nat) :
    l.getD i [] ∈ l ∨ l.getD i [] = [] := by
  rw [List.getD_eq_getElem?_getD]
  by_cases h : i < l.length
  · rw [List.getElem?_eq_getElem h]
    exact Or.inl (List.getElem_mem h)
  · rw [List.getElem?_eq_none (le_of_not_lt h)]
    exact Or.inr rfl

/-- One changes-only render step only appends `+ `/`- ` lines. -/
theorem renderStep_shape (oldL newL : List Str) (ctx : Nat) (cN : List Nat)
    (st : RSt) (i : Nat)
    (hst : ∀ l ∈ st.acc, shapedLine oldL newL l) :
    ∀ l ∈ (renderStep oldL newL .changesOnly ctx cN st i).acc,
      shapedLine oldL newL l := by
  intro l hl
  by_cases hch : cN.contains i = true
  · simp only [renderStep, hch, if_true] at hl
    rcases List.mem_append.mp hl with h1 | h1
    · rcases List.mem_append.mp h1 with h2 | h2
      · exact hst l h2
      · obtain ⟨oi, -, rfl⟩ := List.mem_map.mp h2
        refine ⟨oldL.getD oi [], Or.inr rfl, ?_⟩
        rcases getD_mem_or oldL oi with h3 | h3
        · exact Or.inr (Or.inl h3)
        · exact Or.inr (Or.inr h3)
    · rcases List.mem_singleton.mp h1 with rfl
      refine ⟨newL.getD i [], Or.inl rfl, ?_⟩
      rcases getD_mem_or newL i with h3 | h3
      · exact Or.inl h3
      · exact Or.inr (Or.inr h3)
  · have hsc : (Scope.changesOnly = Scope.changesContext) = False := by simp
    simp only [renderStep, hch, Bool.false_eq_true, if_false, hsc, false_and] at hl
    exact hst l hl

/-- The whole changes-only render fold only appends `+ `/`- ` lines. -/
theorem renderFold_shape (oldL newL : List Str) (ctx : Nat) (cN : List Nat) :
    ∀ (idxs : List Nat) (st : RSt),
      (∀ l ∈ st.acc, shapedLine oldL newL l) →
      ∀ l ∈ (idxs.foldl (renderStep oldL newL .changesOnly ctx cN) st).acc,
        shapedLine oldL newL l := by
  intro idxs
  induction idxs with
  | nil => intro st h; exact h
  | cons i is ih =>
    intro st h
    exact ih _ (renderStep_shape oldL newL ctx cN st i h)

/-- Every line the changes-only differ emits is a `+ `/`- ` line over a
line of one of the two files. -/
theorem emittedLines_shape (oldC newC : Str) (ctx : Nat) :
    ∀ l ∈ emittedLines oldC newC .changesOnly ctx,
      shapedLine (splitNl oldC) (splitNl newC) l := by
  intro l hl
  have hl2 : l ∈ diffResultLines (splitNl oldC) (splitNl newC) .changesOnly ctx :=
    List.mem_of_mem_take hl
  simp only [diffResultLines] at hl2
  by_cases hm : collectChanges (splitNl oldC) (splitNl newC) = []
  · rw [if_pos hm] at hl2; cases hl2
  · rw [if_neg hm] at hl2
    rcases List.mem_append.mp hl2 with h | h
    · exact renderFold_shape _ _ _ _ _ _ (by intro x hx; cases hx) _ h
    · obtain ⟨oi, -, rfl⟩ := List.mem_map.mp h
      refine ⟨(splitNl oldC).getD oi [], Or.inr rfl, ?_⟩
      rcases getD_mem_or (splitNl oldC) oi with h2 | h2
      · exact Or.inr (Or.inl h2)
      · exact Or.inr (Or.inr h2)

/-- Decoding a bare `+ `-prefixed line: add with trimmed content. -/
theorem parseLine_plus (t : Str) :
    parseLine ('+' :: ' ' :: t) = some ⟨.add, [], trimS t⟩ := by
  show some (⟨LKind.add, [], trimS (' ' :: t)⟩ : LineE) = _
  rw [trimS_cons_ws ' ' (by decide) t]

/-- Decoding a bare `- `-prefixed line: removal with trimmed content. -/
theorem parseLine_minus (t : Str) :
    parseLine ('-' :: ' ' :: t) = some ⟨.del, [], trimS t⟩ := by
  show some (⟨LKind.del, [], trimS (' ' :: t)⟩ : LineE) = _
  rw [trimS_cons_ws ' ' (by decide) t]

/-- Decoding a block of `+ `/`- ` lines with trim-invariant texts drops
nothing and recovers each line's op. -/
theorem filterMap_parseLine_shaped : ∀ (lines : List Str),
    (∀ l ∈ lines, ∃ t, (l = '+' :: ' ' :: t ∨ l = '-' :: ' ' :: t) ∧ trimS t = t) →
    lines.filterMap parseLine
      = lines.map (fun l => ⟨(lineOpOf l).1, [], (lineOpOf l).2⟩) := by
  intro lines
  induction lines with
  | nil => intro _; rfl
  | cons l ls ih =>
    intro h
    obtain ⟨t, hl, htrim⟩ := h l (.head _)
    have ihr := ih (fun x hx => h x (.tail _ hx))
    rcases hl with rfl | rfl
    · have hop : lineOpOf ('+' :: ' ' :: t) = (LKind.add, t) := rfl
      rw [List.filterMap_cons, parseLine_plus, htrim, List.map_cons, hop, ihr]
    · have hop : lineOpOf ('-' :: ' ' :: t) = (LKind.del, t) := rfl
      rw [List.filterMap_cons, parseLine_minus, htrim, List.map_cons, hop, ihr]

/-- Characters of the five decoder change-type words are ordinary
letters. -/
theorem ctNames_chars : ∀ p ∈ ctNames, ∀ x ∈ p, x ≠ '\n' ∧ x ≠ '`' := by
  decide

/-- Each decoder change-type word starts with a non-whitespace letter. -/
theorem ctNames_head : ∀ p ∈ ctNames, p ≠ [] ∧ wsChar (p.headD ' ') = false := by
  decide

/-- **C2 (amended).**  For every section the encoder emits in changes-only
mode — change type in the decoder's prefix set, non-blank trim-invariant
path and line texts free of newlines and backticks, at least one diff
line, diff text within the per-file character cap — decoding recovers the
identical (changeType, path) pair and the identical ordered (kind, text)
op sequence.  (Texts with surrounding whitespace are only recovered
trimmed, per the counterexample; context lines, oversized sections and
texts containing backticks or `SourceRename` headers also break the
round trip.) -/
theorem c2_roundtrip_amended :
    ∀ (ct path oldC newC : Str) (ctx : Nat),
      ct ∈ ctNames →
      path ≠ [] → trimS path = path →
      (∀ c ∈ path, c ≠ '\n' ∧ c ≠ '`') →
      (∀ t ∈ splitNl oldC, trimS t = t ∧ ∀ c ∈ t, c ≠ '\n' ∧ c ≠ '`') →
      (∀ t ∈ splitNl newC, trimS t = t ∧ ∀ c ∈ t, c ≠ '\n' ∧ c ≠ '`') →
      emittedLines oldC newC .changesOnly ctx ≠ [] →
      (generateUnifiedDiffS oldC newC .changesOnly ctx).length ≤ maxFileChars →
      (parseDiffS (encodeDiffSection ct path
          (generateUnifiedDiffS oldC newC .changesOnly ctx))).map
          (fun f => (f.changeType, f.path)) = [(ct, path)] ∧
      (parseDiffS (encodeDiffSection ct path
          (generateUnifiedDiffS oldC newC .changesOnly ctx))).map
          (fun f => f.lines.map fun e => (e.kind, e.content))
        = [(emittedLines oldC newC .changesOnly ctx).map lineOpOf] := by
  intro ct path oldC newC ctx hct hpne hptrim hpchars hold hnew hne hsize
  obtain ⟨c, cs, rfl⟩ := List.exists_cons_of_ne_nil hpne
  have hw : wsChar c = false := trim_fix_head_not_ws c cs hptrim
  have hpnl : ∀ x ∈ c :: cs, x ≠ '\n' := fun x hx => (hpchars x hx).1
  have hpbt : ∀ x ∈ c :: cs, x ≠ '`' := fun x hx => (hpchars x hx).2
  have hshape := emittedLines_shape oldC newC ctx
  have hLnl : ∀ l ∈ emittedLines oldC newC .changesOnly ctx, ∀ x ∈ l, x ≠ '\n' := by
    intro l hl x hx
    obtain ⟨t, hlt, hmem⟩ := hshape l hl
    rcases hlt with rfl | rfl <;> simp only [List.mem_cons] at hx
    · rcases hx with rfl | rfl | hxt
      · decide
      · decide
      · rcases hmem with h | h | rfl
        · exact ((hnew t h).2 x hxt).1
        · exact ((hold t h).2 x hxt).1
        · cases hxt
    · rcases hx with rfl | rfl | hxt
      · decide
      · decide
      · rcases hmem with h | h | rfl
        · exact ((hnew t h).2 x hxt).1
        · exact ((hold t h).2 x hxt).1
        · cases hxt
  have hLbt : ∀ l ∈ emittedLines oldC newC .changesOnly ctx, ∀ x ∈ l, x ≠ '`' := by
    intro l hl x hx
    obtain ⟨t, hlt, hmem⟩ := hshape l hl
    rcases hlt with rfl | rfl <;> simp only [List.mem_cons] at hx
    · rcases hx with rfl | rfl | hxt
      · decide
      · decide
      · rcases hmem with h | h | rfl
        · exact ((hnew t h).2 x hxt).2
        · exact ((hold t h).2 x hxt).2
        · cases hxt
    · rcases hx with rfl | rfl | hxt
      · decide
      · decide
      · rcases hmem with h | h | rfl
        · exact ((hnew t h).2 x hxt).2
        · exact ((hold t h).2 x hxt).2
        · cases hxt
  have hLhead : ∀ l ∈ emittedLines oldC newC .changesOnly ctx,
      ∃ d ds, l = d :: ds ∧ (d = '`' || d = '+' || d = '-') = true := by
    intro l hl
    obtain ⟨t, hlt, -⟩ := hshape l hl
    rcases hlt with rfl | rfl
    · exact ⟨'+', ' ' :: t, rfl, by decide⟩
    · exact ⟨'-', ' ' :: t, rfl, by decide⟩
  have hLtrim : ∀ l ∈ emittedLines oldC newC .changesOnly ctx,
      ∃ t, (l = '+' :: ' ' :: t ∨ l = '-' :: ' ' :: t) ∧ trimS t = t := by
    intro l hl
    obtain ⟨t, hlt, hmem⟩ := hshape l hl
    refine ⟨t, hlt, ?_⟩
    rcases hmem with h | h | rfl
    · exact (hnew t h).1
    · exact (hold t h).1
    · rfl
  have hbody : generateUnifiedDiffS oldC newC .changesOnly ctx
      = joinNl (emittedLines oldC newC .changesOnly ctx) := rfl
  set lines := emittedLines oldC newC .changesOnly ctx with hlines
  rw [hbody] at hsize ⊢
  have hbodyNoBt : ∀ x ∈ joinNl lines, x ≠ '`' := by
    intro x hx
    rcases joinNl_mem lines x hx with rfl | ⟨l, hl, hxl⟩
    · decide
    · exact hLbt l hl x hxl
  -- the encoded section in separator-plus-remainder form
  have hsec : encodeDiffSection ct (c :: cs) (joinNl lines)
      = strOf "\n## " ++ (ct ++ ':' :: ' ' :: ((c :: cs) ++ '\n' ::
          (strOf "```diff\n" ++ (joinNl lines ++ strOf "\n```\n")))) := by
    unfold encodeDiffSection sectionHdr
    rw [List.take_of_length_le hsize, if_neg (not_lt.mpr hsize)]
    simp only [List.append_assoc, List.cons_append, List.nil_append,
      List.append_nil]
    rfl
  -- the remainder after the separator
  set inner : Str := ct ++ ':' :: ' ' :: ((c :: cs) ++ '\n' ::
      (strOf "```diff\n" ++ (joinNl lines ++ strOf "\n```\n"))) with hinner
  -- no further separator occurrence inside the section
  have hnlok : nlOk inner = true := by
    have hassoc : inner = (ct ++ ':' :: ' ' :: (c :: cs)) ++ ('\n' ::
        (strOf "```diff\n" ++ (joinNl lines ++ strOf "\n```\n"))) := by
      rw [hinner]
      simp [List.append_assoc]
    rw [hassoc, nlOk_append_noNl]
    · have hB : strOf "```diff\n" ++ (joinNl lines ++ strOf "\n```\n")
          = '`' :: (strOf "``diff\n" ++ (joinNl lines ++ strOf "\n```\n"))
          := rfl
      rw [hB, nlOk_cons_nl '`' _ (by decide), ← hB]
      have hB2 : strOf "```diff\n" ++ (joinNl lines ++ strOf "\n```\n")
          = strOf "```diff" ++ ('\n' :: (joinNl lines ++ strOf "\n```\n"))
          := rfl
      rw [hB2, nlOk_append_noNl (strOf "```diff") (by decide)]
      obtain ⟨l0, ls0, hl0⟩ := List.exists_cons_of_ne_nil hne
      obtain ⟨d, ds, hdef, hd⟩ := hLhead l0 (hl0 ▸ List.mem_cons_self l0 ls0)
      obtain ⟨tail, htail⟩ := joinNl_head_append ls0 d ds (strOf "\n```\n")
      rw [show lines = l0 :: ls0 from hl0, hdef, htail,
        nlOk_cons_nl d tail hd, ← htail]
      rw [nlOk_join ((d :: ds) :: ls0) ?hnl ?hhd (strOf "\n```\n")]
      · decide
      case hnl =>
        intro l hl
        rw [← hdef] at hl
        rw [← hl0] at hl
        exact hLnl l hl
      case hhd =>
        intro l hl
        rw [← hdef] at hl
        rw [← hl0] at hl
        exact hLhead l hl
    · intro x hx
      rcases List.mem_append.mp hx with h | h
      · exact (ctNames_chars ct hct x h).1
      · rcases List.mem_cons.mp h with rfl | h2
        · decide
        · rcases List.mem_cons.mp h2 with rfl | h3
          · decide
          · exact hpnl x h3
  have hnosep : containsS (strOf "\n## ") inner = false := nlOk_no_sep inner hnlok
  -- split into the empty piece and the section body
  have hsplit : splitOnS (strOf "\n## ") (encodeDiffSection ct (c :: cs) (joinNl lines))
      = [[], inner] := by
    rw [hsec]
    exact splitOnS_sep_lead _ _ (by decide) hnosep
  -- header match
  have hhm : headerMatchS inner = some (ct, c :: cs) := by
    rw [hinner]
    rw [headerMatchS_encoded ct hct c cs _ hw hpnl]
    rw [hptrim]
  -- fence extraction
  have hfence : fenceScan inner = some (joinNl lines ++ ['\n']) := by
    have hassoc2 : inner = (ct ++ ':' :: ' ' :: ((c :: cs) ++ ['\n'])) ++
        (strOf "```diff\n" ++ (joinNl lines ++ strOf "\n```\n")) := by
      rw [hinner]
      simp [List.append_assoc]
    rw [hassoc2, fenceScan_skip]
    · have hpre8 : isPre (strOf "```diff\n")
          ('`' :: (strOf "``diff\n" ++ (joinNl lines ++ strOf "\n```\n"))) = true :=
        isPre_append (strOf "```diff\n") (joinNl lines ++ strOf "\n```\n")
      have hB : strOf "```diff\n" ++ (joinNl lines ++ strOf "\n```\n")
          = '`' :: (strOf "``diff\n" ++ (joinNl lines ++ strOf "\n```\n")) := rfl
      rw [hB]
      simp only [fenceScan, hpre8, if_true]
      have hdrop8 : ('`' :: (strOf "``diff\n" ++ (joinNl lines ++ strOf "\n```\n"))).drop 8
          = joinNl lines ++ strOf "\n```\n" := rfl
      rw [hdrop8]
      have hassoc3 : joinNl lines ++ strOf "\n```\n"
          = (joinNl lines ++ ['\n']) ++ '`' :: '`' :: '`' :: ['\n'] := by
        rw [List.append_assoc]
        rfl
      rw [hassoc3]
      rw [fenceClose_through (joinNl lines ++ ['\n']) ?hbt ['\n']]
      case hbt =>
        intro x hx
        rcases List.mem_append.mp hx with h | h
        · exact hbodyNoBt x h
        · rcases List.mem_singleton.mp h with rfl
          decide
    · intro x hx
      rcases List.mem_append.mp hx with h | h
      · exact (ctNames_chars ct hct x h).2
      · rcases List.mem_cons.mp h with rfl | h2
        · decide
        · rcases List.mem_cons.mp h2 with rfl | h3
          · decide
          · rcases List.mem_append.mp h3 with h4 | h4
            · exact hpbt x h4
            · rcases List.mem_singleton.mp h4 with rfl
              decide
  -- decoded lines of the section
  have hsl : sectionLines inner
      = lines.map (fun l => ⟨(lineOpOf l).1, [], (lineOpOf l).2⟩) := by
    unfold sectionLines
    rw [hfence]
    show (splitNl (joinNl lines ++ '\n' :: [])).filterMap parseLine = _
    rw [splitNl_join lines hLnl hne []]
    rw [List.filterMap_append]
    rw [filterMap_parseLine_shaped lines hLtrim]
    have h00 : List.filterMap parseLine (splitNl []) = [] := rfl
    rw [h00, List.append_nil]
  -- the decoded section
  have htrimne : trimS inner ≠ [] := by
    obtain ⟨hctne, hw0⟩ := ctNames_head ct hct
    obtain ⟨d0, ds0, hct0⟩ := List.exists_cons_of_ne_nil hctne
    rw [hct0] at hw0
    simp only [List.headD_cons] at hw0
    have : inner = d0 :: (ds0 ++ (':' :: ' ' :: ((c :: cs) ++ '\n' ::
        (strOf "```diff\n" ++ (joinNl lines ++ strOf "\n```\n"))))) := by
      rw [hinner, hct0]
      rfl
    rw [this]
    exact trimS_cons_not_ws_ne d0 hw0 _
  have hps : parseSection inner = some ⟨c :: cs, ct,
      lines.map (fun l => ⟨(lineOpOf l).1, [], (lineOpOf l).2⟩),
      (lines.map (fun l => (⟨(lineOpOf l).1, [], (lineOpOf l).2⟩ : LineE))).countP
        (fun e => e.kind == LKind.add),
      (lines.map (fun l => (⟨(lineOpOf l).1, [], (lineOpOf l).2⟩ : LineE))).countP
        (fun e => e.kind == LKind.del)⟩ := by
    unfold parseSection
    rw [if_neg htrimne, hhm]
    show (if sectionLines inner ≠ [] ∨ ct = strOf "Delete" then
        some (⟨c :: cs, ct, sectionLines inner,
          (sectionLines inner).countP (fun e => e.kind == LKind.add),
          (sectionLines inner).countP (fun e => e.kind == LKind.del)⟩ : FileD)
      else none) = _
    rw [hsl]
    rw [if_pos (Or.inl (by simp [hne]))]
  -- assemble
  have hparse : parseDiffS (encodeDiffSection ct (c :: cs) (joinNl lines))
      = [⟨c :: cs, ct,
          lines.map (fun l => ⟨(lineOpOf l).1, [], (lineOpOf l).2⟩),
          (lines.map (fun l => (⟨(lineOpOf l).1, [], (lineOpOf l).2⟩ : LineE))).countP
            (fun e => e.kind == LKind.add),
          (lines.map (fun l => (⟨(lineOpOf l).1, [], (lineOpOf l).2⟩ : LineE))).countP
            (fun e => e.kind == LKind.del)⟩] := by
    unfold parseDiffS
    rw [hsplit]
    rw [List.filterMap_cons, List.filterMap_cons]
    have h0 : parseSection [] = none := rfl
    rw [h0, hps]
    rfl
  rw [hparse]
  constructor
  · rfl
  · simp only [List.map_cons, List.map_nil, List.map_map]
    rfl

/-- **C2, counterexample.**  The decoder trims the text of bare `+`/`-`
lines (`line.substring(1).trim()`), so op texts are not always recovered
identically: editing `y` into ` x` emits the ops (del `y`, add ` x`), but
decoding the encoded section yields (del `y`, add `x`) — the leading space
of the add text is lost. -/
theorem c2_counterexample :
    emittedLines (strOf "y") (strOf " x") .changesOnly 0
      = [strOf "- y", strOf "+  x"] ∧
    (parseDiffS (encodeDiffSection (strOf "Edit") (strOf "p")
        (generateUnifiedDiffS (strOf "y") (strOf " x") .changesOnly 0))).map
        (fun f => f.lines.map fun e => (e.kind, e.content))
      = [[(LKind.del, strOf "y"), (LKind.add, strOf "x")]] ∧
    ([[(LKind.del, strOf "y"), (LKind.add, strOf "x")]] : List (List (LKind × Str)))
      ≠ [(emittedLines (strOf "y") (strOf " x") .changesOnly 0).map lineOpOf] := by
  refine ⟨by decide, by decide, by decide⟩

/-- **C2, witness.** -/
theorem c2_roundtrip_amended_witness :
    (parseDiffS (encodeDiffSection (strOf "Edit") (strOf "a.js")
        (generateUnifiedDiffS (strOf "a\nb") (strOf "a\nc") .changesOnly 0))).map
        (fun f => (f.changeType, f.path)) = [(strOf "Edit", strOf "a.js")] ∧
    (parseDiffS (encodeDiffSection (strOf "Edit") (strOf "a.js")
        (generateUnifiedDiffS (strOf "a\nb") (strOf "a\nc") .changesOnly 0))).map
        (fun f => f.lines.map fun e => (e.kind, e.content))
      = [(emittedLines (strOf "a\nb") (strOf "a\nc") .changesOnly 0).map lineOpOf] := by
  exact c2_roundtrip_amended (strOf "Edit") (strOf "a.js") (strOf "a\nb")
    (strOf "a\nc") 0 (by decide) (by decide) (by decide) (by decide)
    (by decide) (by decide) (by decide) (by decide)

end AzReview
